import Mathlib

/-!
# The `kubernetes_all_api_resources` data source

A shallow embedding of `dataSourceKubernetesAllApiResourcesRead`
(`kubernetes/data_source_kubernetes_api_resources.go`) and the properties of its
catalog and of the record identifier it derives.

Go strings are byte sequences, the entry maps are finite maps from string keys to
dynamically typed values, a failed type assertion is a panic (`none`), and the
library collaborators the function calls (`sort.Slice`, `crypto/sha256`) are
parameters described by their documented contracts.
-/

namespace Kubernetes

/-! ## Strings -/

/-- A byte. -/
abbrev Byte := Fin 256

/-- A Go string: an immutable sequence of bytes. -/
abbrev GoString := List Byte

/-- A Go error value, represented by its message. -/
abbrev GoError := GoString

/-- The bytes of a source literal (its UTF-8 encoding). -/
def str (s : String) : GoString :=
  (s.data.flatMap String.utf8EncodeChar).map (fun b => b.val)

/-- Go's `<` on strings: lexicographic comparison of the bytes, a proper prefix
being smaller. -/
def strLess : GoString → GoString → Bool
  | [], [] => false
  | [], _ :: _ => true
  | _ :: _, [] => false
  | a :: as, b :: bs => if a < b then true else if b < a then false else strLess as bs

/-- Go's `<=` on strings. -/
def strLe (a b : GoString) : Prop := strLess a b = true ∨ a = b

/-! ## Discovery data (`k8s.io/apimachinery/pkg/apis/meta/v1`) -/

/-- The record `metav1.APIResource`; every field defaults to Go's zero value. -/
structure APIResource where
  Name : GoString := []
  SingularName : GoString := []
  Namespaced : Bool := false
  Group : GoString := []
  Version : GoString := []
  Kind : GoString := []
  Verbs : List GoString := []
  ShortNames : List GoString := []
  Categories : List GoString := []
  StorageVersionHash : GoString := []
deriving DecidableEq

/-- The record `metav1.APIResourceList`: the resources of one group-version. -/
structure APIResourceList where
  GroupVersion : GoString := []
  APIResources : List APIResource := []
deriving DecidableEq

/-! ## Group-versions (`k8s.io/apimachinery/pkg/runtime/schema`) -/

/-- The record `schema.GroupVersion`. -/
structure GroupVersion where
  Group : GoString
  Version : GoString
deriving DecidableEq

/-- The byte `/`. -/
def slash : Byte := 47

/-- The byte `.`. -/
def dot : Byte := 46

/-- Modelled from the spec: `schema.ParseGroupVersion` belongs to the apimachinery
library, whose source is not part of the repository. A group-version string
decomposes into (group, version): a string without `/` is a bare version of the
core group, a string with exactly one `/` splits at it, and a string with more
than one `/` is rejected; the empty string and `/` give the empty group-version. -/
def ParseGroupVersion (gv : GoString) : Except GoError GroupVersion :=
  if gv.length = 0 ∨ gv = [slash] then .ok ⟨[], []⟩
  else
    match gv.count slash with
    | 0 => .ok ⟨[], gv⟩
    | 1 =>
      let i := gv.indexOf slash
      .ok ⟨gv.take i, gv.drop (i + 1)⟩
    | _ => .error (str "unexpected GroupVersion string: " ++ gv)

/-- Modelled from the spec: `GroupVersion.String` of the same library, the canonical
"group/version" string, or "version" alone for the core group. -/
def GroupVersion.String (gv : GroupVersion) : GoString :=
  if gv.Group.length > 0 then gv.Group ++ ([slash] ++ gv.Version) else gv.Version

/-! ## Entry maps -/

/-- A dynamically typed value stored in an entry map (`interface{}`). -/
inductive Value where
  | string (s : GoString)
  | bool (b : Bool)
  | strings (l : List GoString)
deriving DecidableEq

/-- The type `apiResource` of the source, `map[string]interface{}`: a finite map
from keys to values, `none` where the key is absent. -/
def apiResource : Type := String → Option Value

/-- A map literal. -/
def apiResource.lit (kvs : List (String × Value)) : apiResource :=
  fun k => kvs.lookup k

/-- The assignment `r[k] = v`. -/
def apiResource.set (r : apiResource) (k : String) (v : Value) : apiResource :=
  fun k' => if k' = k then some v else r k'

/-- The type assertion `x.(string)`: `none` is the panic raised when the value is
absent or not a string. -/
def assertString : Option Value → Option GoString
  | some (.string s) => some s
  | _ => none

/-! ## Library collaborators -/

/-- An implementation of `sort.Slice` on a slice of entries: the comparator may
panic (`none`), and so may the sort. -/
structure SliceSorter where
  run : (apiResource → apiResource → Option Bool) → List apiResource →
    Option (List apiResource)

/-- What Go's `sort` package asks of a comparator: a strict weak ordering. -/
structure StrictWeakOrdering {α : Type} (lt : α → α → Bool) : Prop where
  irrefl : ∀ a, lt a a = false
  trans : ∀ a b c, lt a b = true → lt b c = true → lt a c = true
  negTrans : ∀ a b c, lt a b = false → lt b c = false → lt a c = false

/-- The contract of `sort.Slice`: when the comparator never panics on the elements
of the slice and is a strict weak ordering, the sort returns a permutation of the
slice in which no element is less than an element before it. Nothing is promised
about the relative order of elements that compare equal. -/
def SliceSorter.Lawful (S : SliceSorter) : Prop :=
  ∀ (less : apiResource → apiResource → Option Bool)
    (lt : apiResource → apiResource → Bool) (l : List apiResource),
    (∀ a ∈ l, ∀ b ∈ l, less a b = some (lt a b)) →
    StrictWeakOrdering lt →
    ∃ out, S.run less l = some out ∧ out.Perm l ∧
      out.Pairwise (fun a b => lt b a = false)

/-- The libraries the read calls: `sort.Slice` and the SHA-256 digest function. -/
structure Lib where
  sorter : SliceSorter
  sha256Sum : List Byte → List Byte

/-- A running hash (`hash.Hash`): the bytes written so far. -/
structure Hasher where
  written : List Byte

/-- The constructor `sha256.New()`. -/
def Hasher.New : Hasher := ⟨[]⟩

/-- The method `Write`: adds data to the running hash; it never returns an error. -/
def Hasher.Write (h : Hasher) (p : List Byte) : Hasher × Option GoError :=
  (⟨h.written ++ p⟩, none)

/-- The call `Sum(nil)`: the digest of everything written. -/
def Hasher.Sum (L : Lib) (h : Hasher) : List Byte := L.sha256Sum h.written

/-- One lowercase hexadecimal digit. -/
def hexDigit (n : Nat) : Byte :=
  if n < 10 then Fin.ofNat (48 + n) else Fin.ofNat (87 + n)

/-- The formatting `fmt.Sprintf("%x", b)` of a byte slice: two lowercase
hexadecimal digits per byte. -/
def hexLower : List Byte → GoString
  | [] => []
  | b :: bs => hexDigit (b.val / 16) :: hexDigit (b.val % 16) :: hexLower bs

/-! ## The host record and the collaborators' answers -/

/-- The part of `schema.ResourceData` the read writes: the `api_resources` field
and the record ID, `none` while unwritten. -/
structure ResourceData where
  api_resources : Option (List apiResource) := none
  id : Option GoString := none

/-- What the collaborators answer during one read: the error of `MainClientset`,
the lists and the error returned by `ServerPreferredResources` (the discovery client
returns both, and its lists are never nil pointers), and the error with which
`d.Set` refuses a value. -/
structure World where
  clientErr : Option GoError := none
  lists : List APIResourceList := []
  discoveryErr : Option GoError := none
  setErr : List apiResource → Option GoError := fun _ => none

/-! ## The read -/

/-- The map literal of lines 110-118. -/
def newEntry (gv : GroupVersion) (resource : APIResource) : apiResource :=
  apiResource.lit
    [("api_group", .string gv.Group),
     ("api_group_version", .string gv.String),
     ("name", .string resource.Name),
     ("shortnames", .strings resource.ShortNames),
     ("namespaced", .bool resource.Namespaced),
     ("kind", .string resource.Kind),
     ("verbs", .strings resource.Verbs)]

/-- The inner loop of lines 106-119 over the resources of one list. -/
def appendResources (gv : GroupVersion) (resources : List apiResource)
    (rs : List APIResource) : List apiResource :=
  rs.foldl
    (fun resources resource =>
      if resource.Verbs.length = 0 then resources
      else resources ++ [newEntry gv resource])
    resources

/-- The loop of lines 97-120 over the discovery lists. -/
def collectResources (lists : List APIResourceList) : List apiResource :=
  lists.foldl
    (fun resources list =>
      if list.APIResources.length = 0 then resources
      else
        match ParseGroupVersion list.GroupVersion with
        | .error _ => resources
        | .ok gv => appendResources gv resources list.APIResources)
    []

/-- The body of the loop of lines 123-130 for one entry. -/
def setFullyQualifiedName (r : apiResource) : Option apiResource := do
  let fqn ← assertString (r "name")
  let group ← assertString (r "api_group")
  if group.length > 0 then do
    let group' ← assertString (r "api_group")
    pure (r.set "fully_qualified_name" (.string (fqn ++ ([dot] ++ group'))))
  else
    pure (r.set "fully_qualified_name" (.string fqn))

/-- The comparator of line 134. -/
def lessFqn (a b : apiResource) : Option Bool := do
  let x ← assertString (a "fully_qualified_name")
  let y ← assertString (b "fully_qualified_name")
  pure (strLess x y)

/-- Lines 94-135: the sorted slice of entries, `none` on a panic. -/
def buildResources (L : Lib) (lists : List APIResourceList) :
    Option (List apiResource) := do
  let resources := collectResources lists
  let resources ← resources.mapM setFullyQualifiedName
  L.sorter.run lessFqn resources

/-- The loop of lines 147-152: `none` on a panic, otherwise the running hash and
the error of the first failed write. -/
def writeNames : Hasher → List apiResource → Option (Hasher × Option GoError)
  | idsum, [] => some (idsum, none)
  | idsum, v :: rest => do
    let s ← assertString (v "fully_qualified_name")
    match idsum.Write s with
    | (_, some err) => some (idsum, some err)
    | (idsum', none) => writeNames idsum' rest

/-- The function `dataSourceKubernetesAllApiResourcesRead`: `none` on a panic,
otherwise the returned error (`none` for `nil`) and the record as left. The error
returned by `ServerPreferredResources` is assigned to `err` and never read before
`err` is assigned again from `d.Set`. A `d.Set` that returns an error is taken to
leave the field unwritten. -/
def dataSourceKubernetesAllApiResourcesRead (L : Lib) (w : World) (d : ResourceData) :
    Option (Option GoError × ResourceData) :=
  match w.clientErr with
  | some err => some (some err, d)
  | none => do
    let resources ← buildResources L w.lists
    match w.setErr resources with
    | some err => some (some err, d)
    | none =>
      let d := { d with api_resources := some resources }
      let (idsum, werr) ← writeNames Hasher.New resources
      match werr with
      | some err => some (some err, d)
      | none =>
        let id := hexLower (idsum.Sum L)
        some (none, { d with id := some id })

/-! ## A concrete `sort.Slice` -/

/-- Insertion of `x` into a sorted slice, before the first element it is less
than. -/
def insertSorted (less : apiResource → apiResource → Option Bool) (x : apiResource) :
    List apiResource → Option (List apiResource)
  | [] => some [x]
  | y :: ys => do
    if (← less x y) then pure (x :: y :: ys)
    else do
      let r ← insertSorted less x ys
      pure (y :: r)

/-- Insertion sort, the algorithm `sort.Slice` runs on short slices: every element
in turn is moved left into the sorted part before it. -/
def insertionSort (less : apiResource → apiResource → Option Bool)
    (l : List apiResource) : Option (List apiResource) :=
  l.foldlM (fun sorted x => insertSorted less x sorted) []

/-- The insertion sorter. -/
def stdSorter : SliceSorter := ⟨insertionSort⟩

/-! ## Observations of a read -/

/-- The fully-qualified name stored in an entry (empty when absent). -/
def fqnOf (e : apiResource) : GoString :=
  (assertString (e "fully_qualified_name")).getD []

/-- A world in which every collaborator succeeds and discovery returns `lists`. -/
def World.ofLists (lists : List APIResourceList) : World := { lists := lists }

/-- The record left by a read of `lists` in which every collaborator succeeds,
starting from an empty record. -/
def readRecord (L : Lib) (lists : List APIResourceList) : Option ResourceData :=
  (dataSourceKubernetesAllApiResourcesRead L (World.ofLists lists) {}).map (·.2)

/-- The catalog written to `api_resources` by such a read. -/
def catalogOf (L : Lib) (lists : List APIResourceList) : Option (List apiResource) :=
  (readRecord L lists).bind (·.api_resources)

/-- The identifier set by such a read. -/
def identifierOf (L : Lib) (lists : List APIResourceList) : Option GoString :=
  (readRecord L lists).bind (·.id)

/-- The fully-qualified names of the catalog, in catalog order. -/
def catalogNames (L : Lib) (lists : List APIResourceList) : Option (List GoString) :=
  (catalogOf L lists).map (·.map fqnOf)

/-! ## The catalog described by the specification -/

/-- The fully-qualified name of a resource: the name alone when the group is empty,
otherwise the name, a dot, and the group. -/
def fullyQualifiedName (name group : GoString) : GoString :=
  if group = [] then name else name ++ [dot] ++ group

/-- The catalog entry of a descriptor of a list whose group-version parsed as `gv`:
the descriptor's name, short names, namespaced flag, kind and verbs copied, the
group and canonical group-version string of the list, and the derived name. -/
def catalogEntry (gv : GroupVersion) (r : APIResource) : apiResource :=
  apiResource.lit
    [("api_group", .string gv.Group),
     ("api_group_version", .string gv.String),
     ("name", .string r.Name),
     ("shortnames", .strings r.ShortNames),
     ("namespaced", .bool r.Namespaced),
     ("kind", .string r.Kind),
     ("verbs", .strings r.Verbs),
     ("fully_qualified_name", .string (fullyQualifiedName r.Name gv.Group))]

/-- The entries of one resource list: none when its group-version string does not
parse, otherwise one per descriptor with a non-empty verb set, in input order. -/
def retainedOfList (list : APIResourceList) : List apiResource :=
  match ParseGroupVersion list.GroupVersion with
  | .error _ => []
  | .ok gv => (list.APIResources.filter (fun r => decide (r.Verbs ≠ []))).map (catalogEntry gv)

/-- The entries of a discovery result, list by list in input order. -/
def retainedEntries (lists : List APIResourceList) : List apiResource :=
  lists.flatMap retainedOfList

/-! ## SHA-256 (FIPS 180-4), the digest computed by `crypto/sha256` -/

/-- Addition of 32-bit words. -/
def add32 (a b : Nat) : Nat := (a + b) % 2 ^ 32

/-- Rotation of a 32-bit word to the right. -/
def rotr32 (x n : Nat) : Nat := ((x >>> n) ||| (x <<< (32 - n))) % 2 ^ 32

/-- The round constants. -/
def sha256Constants : List Nat :=
  [0x428a2f98, 0x71374491, 0xb5c0fbcf, 0xe9b5dba5, 0x3956c25b, 0x59f111f1, 0x923f82a4,
   0xab1c5ed5, 0xd807aa98, 0x12835b01, 0x243185be, 0x550c7dc3, 0x72be5d74, 0x80deb1fe,
   0x9bdc06a7, 0xc19bf174, 0xe49b69c1, 0xefbe4786, 0x0fc19dc6, 0x240ca1cc, 0x2de92c6f,
   0x4a7484aa, 0x5cb0a9dc, 0x76f988da, 0x983e5152, 0xa831c66d, 0xb00327c8, 0xbf597fc7,
   0xc6e00bf3, 0xd5a79147, 0x06ca6351, 0x14292967, 0x27b70a85, 0x2e1b2138, 0x4d2c6dfc,
   0x53380d13, 0x650a7354, 0x766a0abb, 0x81c2c92e, 0x92722c85, 0xa2bfe8a1, 0xa81a664b,
   0xc24b8b70, 0xc76c51a3, 0xd192e819, 0xd6990624, 0xf40e3585, 0x106aa070, 0x19a4c116,
   0x1e376c08, 0x2748774c, 0x34b0bcb5, 0x391c0cb3, 0x4ed8aa4a, 0x5b9cca4f, 0x682e6ff3,
   0x748f82ee, 0x78a5636f, 0x84c87814, 0x8cc70208, 0x90befffa, 0xa4506ceb, 0xbef9a3f7,
   0xc67178f2]

/-- The initial hash value. -/
def sha256Initial : List Nat :=
  [0x6a09e667, 0xbb67ae85, 0x3c6ef372, 0xa54ff53a, 0x510e527f, 0x9b05688c, 0x1f83d9ab,
   0x5be0cd19]

/-- The message followed by the bit `1`, zero bits up to 56 bytes modulo 64, and the
length of the message in bits as a 64-bit big-endian number. -/
def sha256Pad (msg : List Byte) : List Nat :=
  let n := msg.length
  let zeros := (119 - n % 64) % 64
  msg.map (fun b => b.val) ++ [0x80] ++ List.replicate zeros 0 ++
    (List.range 8).map (fun i => ((n * 8) >>> (8 * (7 - i))) % 256)

/-- The big-endian 32-bit words of a byte sequence. -/
def sha256Words : List Nat → List Nat
  | a :: b :: c :: d :: rest => (a * 2 ^ 24 + b * 2 ^ 16 + c * 2 ^ 8 + d) :: sha256Words rest
  | _ => []

/-- The message schedule of a block, latest word first: `n` further words are
derived from the sixteen words of the block. -/
def sha256Schedule : Nat → List Nat → List Nat
  | 0, w => w
  | n + 1, w =>
    let w := sha256Schedule n w
    let s0 := rotr32 (w.getD 14 0) 7 ^^^ rotr32 (w.getD 14 0) 18 ^^^ (w.getD 14 0 >>> 3)
    let s1 := rotr32 (w.getD 1 0) 17 ^^^ rotr32 (w.getD 1 0) 19 ^^^ (w.getD 1 0 >>> 10)
    add32 (add32 (add32 s1 (w.getD 6 0)) s0) (w.getD 15 0) :: w

/-- One round of the compression function on the working variables. -/
def sha256Round (v : List Nat) (kw : Nat × Nat) : List Nat :=
  match v with
  | [a, b, c, d, e, f, g, h] =>
    let S1 := rotr32 e 6 ^^^ rotr32 e 11 ^^^ rotr32 e 25
    let ch := (e &&& f) ^^^ ((e ^^^ (2 ^ 32 - 1)) &&& g)
    let t1 := add32 (add32 (add32 (add32 h S1) ch) kw.1) kw.2
    let S0 := rotr32 a 2 ^^^ rotr32 a 13 ^^^ rotr32 a 22
    let maj := (a &&& b) ^^^ (a &&& c) ^^^ (b &&& c)
    let t2 := add32 S0 maj
    [add32 t1 t2, a, b, c, add32 d t1, e, f, g]
  | _ => v

/-- The compression of one block of sixteen words into the hash value. -/
def sha256Compress (h : List Nat) (block : List Nat) : List Nat :=
  let w := (sha256Schedule 48 block.reverse).reverse
  let v := (sha256Constants.zip w).foldl sha256Round h
  List.zipWith add32 h v

/-- The hash value after the blocks of a word sequence, at most `fuel` of them. -/
def sha256Blocks : Nat → List Nat → List Nat → List Nat
  | 0, h, _ => h
  | fuel + 1, h, ws =>
    if ws.length < 16 then h
    else sha256Blocks fuel (sha256Compress h (ws.take 16)) (ws.drop 16)

/-- The SHA-256 digest of a message: 32 bytes. -/
def sha256Digest (msg : List Byte) : List Byte :=
  let ws := sha256Words (sha256Pad msg)
  (sha256Blocks ws.length sha256Initial ws).flatMap
    (fun x => [Fin.ofNat (x >>> 24), Fin.ofNat (x >>> 16), Fin.ofNat (x >>> 8), Fin.ofNat x])

/-- The libraries as linked: insertion sort and SHA-256. -/
def stdLib : Lib := ⟨stdSorter, sha256Digest⟩

/-! ## Relations between discovery results -/

/-- A resource list is malformed when its group-version string has more than one
`/`. -/
def malformed (list : APIResourceList) : Bool :=
  decide (2 ≤ list.GroupVersion.count slash)

/-- Two descriptors with the same name whose verb sets are equal or both non-empty;
every other field may differ. -/
def sameResourceName (r r' : APIResource) : Prop :=
  r.Name = r'.Name ∧ (r.Verbs = r'.Verbs ∨ (r.Verbs ≠ [] ∧ r'.Verbs ≠ []))

/-- Two resource lists of the same group-version whose descriptors correspond one
to one under `sameResourceName`. -/
def sameListNames (a b : APIResourceList) : Prop :=
  a.GroupVersion = b.GroupVersion ∧ List.Forall₂ sameResourceName a.APIResources b.APIResources

/-- Two discovery results whose lists correspond one to one under `sameListNames`:
they differ at most in attributes other than names and groups. -/
def sameNamesAndGroups (l₁ l₂ : List APIResourceList) : Prop :=
  List.Forall₂ sameListNames l₁ l₂

/-- The discovery result `lists` with the descriptor `r` added to a list of
group-version `g`, between the descriptors `before` and `after`; `pre` and `post`
are the other lists. -/
def withDescriptor (pre post : List APIResourceList) (g : GoString)
    (before after : List APIResource) (r : APIResource) : List APIResourceList :=
  pre ++ [{ GroupVersion := g, APIResources := before ++ [r] ++ after }] ++ post

/-- The same discovery result without the descriptor. -/
def withoutDescriptor (pre post : List APIResourceList) (g : GoString)
    (before after : List APIResource) : List APIResourceList :=
  pre ++ [{ GroupVersion := g, APIResources := before ++ after }] ++ post

/-! ## Concrete inputs -/

/-- The discovery result of the specification's example. -/
def exampleLists : List APIResourceList :=
  [{ GroupVersion := str "apps/v1",
     APIResources :=
       [{ Name := str "deployments", Group := str "apps", Verbs := [str "list", str "get"] }] },
   { GroupVersion := str "v1",
     APIResources :=
       [{ Name := str "pods", Verbs := [str "list"] }, { Name := str "endpoints" }] }]

/-- The example with other kinds, short names, scopes and verbs. -/
def exampleListsRelabelled : List APIResourceList :=
  [{ GroupVersion := str "apps/v1",
     APIResources :=
       [{ Name := str "deployments", Group := str "apps", Kind := str "Deployment",
          Namespaced := true, ShortNames := [str "deploy"], Verbs := [str "watch"] }] },
   { GroupVersion := str "v1",
     APIResources :=
       [{ Name := str "pods", Kind := str "Pod", Verbs := [str "list", str "delete"] },
        { Name := str "endpoints", Kind := str "Endpoints" }] }]

/-- The example between two lists whose group-version strings do not parse. -/
def exampleListsWithMalformed : List APIResourceList :=
  [{ GroupVersion := str "a/b/c",
     APIResources := [{ Name := str "widgets", Verbs := [str "get"] }] }] ++
  exampleLists ++
  [{ GroupVersion := str "x//v1",
     APIResources := [{ Name := str "gadgets", Verbs := [str "list"] }] }]

/-- A read in which discovery fails: no lists and a non-nil error, every other
collaborator succeeding. -/
def discoveryFailure : World :=
  { lists := [], discoveryErr := some (str "connection refused") }

/-- Core resources named `a` and `bc`. -/
def splitNamesA : List APIResourceList :=
  [{ GroupVersion := str "v1",
     APIResources :=
       [{ Name := str "a", Verbs := [str "get"] }, { Name := str "bc", Verbs := [str "get"] }] }]

/-- Core resources named `ab` and `c`. -/
def splitNamesB : List APIResourceList :=
  [{ GroupVersion := str "v1",
     APIResources :=
       [{ Name := str "ab", Verbs := [str "get"] }, { Name := str "c", Verbs := [str "get"] }] }]

/-- A core descriptor with a verb and the empty name. -/
def unnamedResource : APIResource := { Name := [], Verbs := [str "get"] }

/-! ## A second `sort.Slice` -/

/-- The gap pass that `quickSort_func` of Go releases up to 1.18 runs on a slice of
at most twelve elements before insertion sort: for `i` from 6 upwards the element at
`i` is swapped with the element at `i - 6` when it is less. `window` holds the six
elements before position `i`, oldest first, and the second argument the elements
from `i` on. -/
def gapPass (less : apiResource → apiResource → Option Bool) :
    List apiResource → List apiResource → Option (List apiResource)
  | window, [] => some window
  | [], x :: xs => some (x :: xs)
  | y :: window, x :: xs => do
    if (← less x y) then
      let rest ← gapPass less (window ++ [y]) xs
      pure (x :: rest)
    else
      let rest ← gapPass less (window ++ [x]) xs
      pure (y :: rest)

/-- The sort of a short slice in Go releases up to 1.18: the gap pass, then
insertion sort. Longer slices, which those releases partition first, are sorted
here the same way. -/
def legacySort (less : apiResource → apiResource → Option Bool)
    (l : List apiResource) : Option (List apiResource) := do
  let l' ← gapPass less (l.take 6) (l.drop 6)
  insertionSort less l'

/-- The sorter of Go releases up to 1.18 on short slices. -/
def legacySorter : SliceSorter := ⟨legacySort⟩

/-- The libraries with that sorter. -/
def legacyLib : Lib := ⟨legacySorter, sha256Digest⟩

/-! ## Keys of descriptors and reorderings -/

/-- The (group-version string, resource name) pairs of a discovery result. -/
def descriptorKeys (lists : List APIResourceList) : List (GoString × GoString) :=
  lists.flatMap (fun l => l.APIResources.map (fun r => (l.GroupVersion, r.Name)))

/-- The (group, resource name) pairs of the retained descriptors of one list. -/
def retainedKeysOfList (list : APIResourceList) : List (GoString × GoString) :=
  match ParseGroupVersion list.GroupVersion with
  | .error _ => []
  | .ok gv =>
    (list.APIResources.filter (fun r => decide (r.Verbs ≠ []))).map (fun r => (gv.Group, r.Name))

/-- The (group, resource name) pairs of the retained descriptors. -/
def retainedKeys (lists : List APIResourceList) : List (GoString × GoString) :=
  lists.flatMap retainedKeysOfList

/-- The list `b` holds the descriptors of `a` in another order. -/
def sameListReordered (a b : APIResourceList) : Prop :=
  a.GroupVersion = b.GroupVersion ∧ a.APIResources.Perm b.APIResources

/-- The discovery result `l₂` is `l₁` with its lists reordered and the descriptors
inside each list reordered. -/
def reordered (l₁ l₂ : List APIResourceList) : Prop :=
  ∃ l, l₁.Perm l ∧ List.Forall₂ sameListReordered l l₂

/-- The group-version string stored in an entry (empty when absent). -/
def groupVersionOf (e : apiResource) : GoString :=
  (assertString (e "api_group_version")).getD []

/-- A group-version string of the form "g/v" with `g` non-empty and one `/`, or of
the form "v" with no `/`, `g` then being empty. -/
def hasGroup (s g : GoString) : Prop :=
  (s.count slash = 0 ∧ g = []) ∨
    (g ≠ [] ∧ slash ∉ g ∧ ∃ v, slash ∉ v ∧ s = g ++ [slash] ++ v)

/-! ## Further concrete inputs -/

/-- Two versions of the group `apps`, each with `deployments`. -/
def twoVersions : List APIResourceList :=
  [{ GroupVersion := str "apps/v1",
     APIResources := [{ Name := str "deployments", Verbs := [str "get"] }] },
   { GroupVersion := str "apps/v1beta1",
     APIResources := [{ Name := str "deployments", Verbs := [str "get"] }] }]

/-- Seven resources, `deployments` of `apps/v1` second and `deployments` of
`apps/v1beta1` last. -/
def sevenResources : List APIResourceList :=
  [{ GroupVersion := str "policy/v1",
     APIResources := [{ Name := str "poddisruptionbudgets", Verbs := [str "get"] }] },
   { GroupVersion := str "apps/v1",
     APIResources := [{ Name := str "deployments", Verbs := [str "get"] }] },
   { GroupVersion := str "v1",
     APIResources :=
       [{ Name := str "pods", Verbs := [str "get"] },
        { Name := str "services", Verbs := [str "get"] },
        { Name := str "nodes", Verbs := [str "get"] },
        { Name := str "secrets", Verbs := [str "get"] }] },
   { GroupVersion := str "apps/v1beta1",
     APIResources := [{ Name := str "deployments", Verbs := [str "get"] }] }]

/-- The example with its lists and the descriptors of the core list swapped. -/
def exampleListsReordered : List APIResourceList :=
  [{ GroupVersion := str "v1",
     APIResources :=
       [{ Name := str "endpoints" }, { Name := str "pods", Verbs := [str "list"] }] },
   { GroupVersion := str "apps/v1",
     APIResources :=
       [{ Name := str "deployments", Group := str "apps", Verbs := [str "list", str "get"] }] }]

/-- A read of the example in which `d.Set` refuses every value. -/
def setRefused : World :=
  { lists := exampleLists, setErr := fun _ => some (str "invalid value") }

/-- Core resources: `pods` alone. -/
def podsOnly : List APIResource := [{ Name := str "pods", Verbs := [str "list"] }]

/-- The read returns `nil` having written `cat` to `api_resources` and `id` as the
record ID. -/
def readWrites (L : Lib) (w : World) (d : ResourceData) (cat : List apiResource)
    (id : GoString) : Prop :=
  dataSourceKubernetesAllApiResourcesRead L w d =
    some (none, { api_resources := some cat, id := some id })

/-! ## The order on strings -/

theorem strLess_irrefl (a : GoString) : strLess a a = false := by
  induction a with
  | nil => rfl
  | cons x xs ih => simp [strLess, ih]

theorem strLess_trans (a b c : GoString) (hab : strLess a b = true) (hbc : strLess b c = true) :
    strLess a c = true := by
  induction a generalizing b c with
  | nil =>
    cases b with
    | nil => simp [strLess] at hab
    | cons y ys =>
      cases c with
      | nil => simp [strLess] at hbc
      | cons z zs => rfl
  | cons x xs ih =>
    cases b with
    | nil => simp [strLess] at hab
    | cons y ys =>
      cases c with
      | nil => simp [strLess] at hbc
      | cons z zs =>
        simp only [strLess] at hab hbc ⊢
        rcases lt_trichotomy x y with hxy | hxy | hxy
        · rcases lt_trichotomy y z with hyz | hyz | hyz
          · simp [lt_trans hxy hyz]
          · subst hyz; simp [hxy]
          · simp [hyz, not_lt_of_gt hyz] at hbc
        · subst hxy
          rcases lt_trichotomy x z with hyz | hyz | hyz
          · simp [hyz]
          · subst hyz
            simp only [lt_irrefl, if_false] at hab hbc ⊢
            exact ih _ _ hab hbc
          · simp [hyz, not_lt_of_gt hyz] at hbc
        · simp [hxy, not_lt_of_gt hxy] at hab

theorem strLess_total (a b : GoString) (hab : strLess a b = false) (hba : strLess b a = false) :
    a = b := by
  induction a generalizing b with
  | nil =>
    cases b with
    | nil => rfl
    | cons y ys => simp [strLess] at hab
  | cons x xs ih =>
    cases b with
    | nil => simp [strLess] at hba
    | cons y ys =>
      simp only [strLess] at hab hba
      rcases lt_trichotomy x y with hxy | hxy | hxy
      · simp [hxy] at hab
      · subst hxy
        simp only [lt_irrefl, if_false] at hab hba
        rw [ih _ hab hba]
      · simp [hxy] at hba

theorem strLess_negTrans (a b c : GoString) (hab : strLess a b = false)
    (hbc : strLess b c = false) : strLess a c = false := by
  cases hac : strLess a c with
  | false => rfl
  | true =>
    cases hba : strLess b a with
    | false =>
      have h := strLess_total a b hab hba
      subst h
      rw [hac] at hbc
      exact absurd hbc (by decide)
    | true =>
      have h := strLess_trans b a c hba hac
      rw [h] at hbc
      exact absurd hbc (by decide)

/-! ## The insertion sorter meets the contract of `sort.Slice` -/

theorem StrictWeakOrdering.asymm {α : Type} {lt : α → α → Bool} (h : StrictWeakOrdering lt)
    (a b : α) (hab : lt a b = true) : lt b a = false := by
  cases hba : lt b a with
  | false => rfl
  | true =>
    have := h.trans a b a hab hba
    rw [h.irrefl a] at this
    exact absurd this (by decide)

theorem insertSorted_spec (less : apiResource → apiResource → Option Bool)
    (lt : apiResource → apiResource → Bool) (hlt : StrictWeakOrdering lt)
    (x : apiResource) (l : List apiResource)
    (hless : ∀ b ∈ l, less x b = some (lt x b))
    (hsorted : l.Pairwise (fun a b => lt b a = false)) :
    ∃ out, insertSorted less x l = some out ∧ out.Perm (x :: l) ∧
      out.Pairwise (fun a b => lt b a = false) := by
  induction l with
  | nil => exact ⟨[x], rfl, List.Perm.refl _, List.pairwise_singleton _ _⟩
  | cons y ys ih =>
    have hy := hless y (List.mem_cons_self _ _)
    rw [List.pairwise_cons] at hsorted
    obtain ⟨hys, hrest⟩ := hsorted
    cases hxy : lt x y with
    | true =>
      refine ⟨x :: y :: ys, ?_, List.Perm.refl _, ?_⟩
      · simp [insertSorted, hy, hxy]
      · rw [List.pairwise_cons]
        refine ⟨?_, List.pairwise_cons.mpr ⟨hys, hrest⟩⟩
        intro z hz
        rcases List.mem_cons.mp hz with rfl | hz
        · exact hlt.asymm _ _ hxy
        · cases hzx : lt z x with
          | false => rfl
          | true =>
            have := hlt.trans z x y hzx hxy
            rw [hys z hz] at this
            exact absurd this (by decide)
    | false =>
      obtain ⟨r, hr, hperm, hrs⟩ := ih (fun b hb => hless b (List.mem_cons_of_mem _ hb)) hrest
      refine ⟨y :: r, ?_, ?_, ?_⟩
      · simp [insertSorted, hy, hxy, hr]
      · exact (List.Perm.cons y hperm).trans (List.Perm.swap x y ys)
      · rw [List.pairwise_cons]
        refine ⟨?_, hrs⟩
        intro z hz
        rcases List.mem_cons.mp (hperm.mem_iff.mp hz) with rfl | hz
        · exact hxy
        · exact hys z hz

theorem insertionSort_foldlM (less : apiResource → apiResource → Option Bool)
    (lt : apiResource → apiResource → Bool) (hlt : StrictWeakOrdering lt)
    (l acc : List apiResource)
    (hless : ∀ a ∈ l, ∀ b ∈ acc ++ l, less a b = some (lt a b))
    (hsorted : acc.Pairwise (fun a b => lt b a = false)) :
    ∃ out, l.foldlM (fun sorted x => insertSorted less x sorted) acc = some out ∧
      out.Perm (acc ++ l) ∧ out.Pairwise (fun a b => lt b a = false) := by
  induction l generalizing acc with
  | nil => exact ⟨acc, rfl, by simp, hsorted⟩
  | cons x xs ih =>
    obtain ⟨r, hr, hperm, hrs⟩ := insertSorted_spec less lt hlt x acc
      (fun b hb => hless x (List.mem_cons_self _ _) b (List.mem_append_left _ hb)) hsorted
    have hmem : ∀ b, b ∈ r ++ xs → b ∈ acc ++ x :: xs := by
      intro b hb
      rcases List.mem_append.mp hb with hb | hb
      · rcases List.mem_cons.mp (hperm.mem_iff.mp hb) with rfl | hb
        · simp
        · exact List.mem_append_left _ hb
      · exact List.mem_append_right _ (List.mem_cons_of_mem _ hb)
    obtain ⟨out, hout, hp, hso⟩ := ih r
      (fun a ha b hb => hless a (List.mem_cons_of_mem _ ha) b (hmem b hb)) hrs
    refine ⟨out, ?_, ?_, hso⟩
    · rw [List.foldlM_cons, hr]
      exact hout
    · refine hp.trans ?_
      refine (List.Perm.append_right xs hperm).trans ?_
      exact List.perm_middle.symm

theorem stdSorter_lawful : stdSorter.Lawful := by
  intro less lt l hless hlt
  obtain ⟨out, hout, hperm, hs⟩ := insertionSort_foldlM less lt hlt l []
    (fun a ha b hb => hless a ha b (by simpa using hb)) List.Pairwise.nil
  exact ⟨out, hout, by simpa using hperm, hs⟩

/-! ## The passes of the read -/

theorem fqn_assoc (name group : GoString) (h : group.length > 0) :
    name ++ ([dot] ++ group) = fullyQualifiedName name group := by
  have : group ≠ [] := by
    intro h'; subst h'; simp at h
  simp [fullyQualifiedName, this]

theorem setFullyQualifiedName_newEntry (gv : GroupVersion) (r : APIResource) :
    setFullyQualifiedName (newEntry gv r) = some (catalogEntry gv r) := by
  have hname : newEntry gv r "name" = some (.string r.Name) := rfl
  have hgroup : newEntry gv r "api_group" = some (.string gv.Group) := rfl
  have hset : ∀ v, (newEntry gv r).set "fully_qualified_name" (.string v) =
      apiResource.lit
        [("api_group", .string gv.Group),
         ("api_group_version", .string gv.String),
         ("name", .string r.Name),
         ("shortnames", .strings r.ShortNames),
         ("namespaced", .bool r.Namespaced),
         ("kind", .string r.Kind),
         ("verbs", .strings r.Verbs),
         ("fully_qualified_name", .string v)] := by
    intro v
    funext k
    simp only [apiResource.set, newEntry, apiResource.lit, List.lookup]
    by_cases h : k = "fully_qualified_name"
    · subst h; rfl
    · simp only [h, if_false]
      have h' : (k == "fully_qualified_name") = false := by simpa using h
      simp only [h']
  unfold setFullyQualifiedName
  simp only [hname, hgroup, assertString, Option.bind_eq_bind, Option.some_bind, Option.pure_def]
  by_cases hg : gv.Group.length > 0
  · simp only [hg, if_true, Option.some_bind, hset, catalogEntry, fqn_assoc _ _ hg]
  · have : gv.Group = [] := by
      cases hgg : gv.Group with
      | nil => rfl
      | cons a as => rw [hgg] at hg; simp at hg
    simp only [hg, if_false, hset, catalogEntry, fullyQualifiedName, this, if_true]
    rfl

theorem appendResources_eq (gv : GroupVersion) (acc : List apiResource) (rs : List APIResource) :
    appendResources gv acc rs =
      acc ++ (rs.filter (fun r => decide (r.Verbs ≠ []))).map (newEntry gv) := by
  unfold appendResources
  induction rs generalizing acc with
  | nil => simp
  | cons r rs ih =>
    rw [List.foldl_cons, ih]
    by_cases hv : r.Verbs = []
    · simp [hv]
    · have hl : r.Verbs.length ≠ 0 := by
        intro h; exact hv (List.length_eq_zero.mp h)
      simp [hv, hl]

theorem mapM_newEntry (gv : GroupVersion) (rs : List APIResource) :
    (rs.map (newEntry gv)).mapM setFullyQualifiedName = some (rs.map (catalogEntry gv)) := by
  induction rs with
  | nil => rfl
  | cons r rs ih =>
    simp only [List.map_cons, List.mapM_cons, setFullyQualifiedName_newEntry, ih]
    rfl

theorem mapM_append_some (f : apiResource → Option apiResource) (l₁ l₂ r₁ r₂ : List apiResource)
    (h₁ : l₁.mapM f = some r₁) (h₂ : l₂.mapM f = some r₂) :
    (l₁ ++ l₂).mapM f = some (r₁ ++ r₂) := by
  rw [List.mapM_append, h₁, h₂]
  rfl

theorem retainedOfList_nil (list : APIResourceList) (h : list.APIResources.length = 0) :
    retainedOfList list = [] := by
  have : list.APIResources = [] := List.length_eq_zero.mp h
  unfold retainedOfList
  rw [this]
  cases ParseGroupVersion list.GroupVersion <;> rfl

theorem collect_foldl_mapM (lists : List APIResourceList) (acc acc' : List apiResource)
    (h : acc.mapM setFullyQualifiedName = some acc') :
    (lists.foldl
      (fun resources list =>
        if list.APIResources.length = 0 then resources
        else
          match ParseGroupVersion list.GroupVersion with
          | .error _ => resources
          | .ok gv => appendResources gv resources list.APIResources)
      acc).mapM setFullyQualifiedName = some (acc' ++ retainedEntries lists) := by
  induction lists generalizing acc acc' with
  | nil => simpa [retainedEntries] using h
  | cons list lists ih =>
    rw [List.foldl_cons]
    have hcons : retainedEntries (list :: lists) = retainedOfList list ++ retainedEntries lists := by
      simp [retainedEntries]
    rw [hcons, ← List.append_assoc]
    apply ih
    by_cases h0 : list.APIResources.length = 0
    · simp only [h0, if_true, retainedOfList_nil list h0, List.append_nil]
      exact h
    · simp only [h0, if_false]
      unfold retainedOfList
      cases hp : ParseGroupVersion list.GroupVersion with
      | error e => simpa using h
      | ok gv =>
        simp only []
        rw [appendResources_eq]
        apply mapM_append_some _ _ _ _ _ h
        rw [← mapM_newEntry]

theorem collectResources_mapM (lists : List APIResourceList) :
    (collectResources lists).mapM setFullyQualifiedName = some (retainedEntries lists) := by
  have := collect_foldl_mapM lists [] [] rfl
  simpa [collectResources] using this

theorem fqnOf_catalogEntry (gv : GroupVersion) (r : APIResource) :
    fqnOf (catalogEntry gv r) = fullyQualifiedName r.Name gv.Group := rfl

theorem mem_retainedEntries (lists : List APIResourceList) (e : apiResource)
    (h : e ∈ retainedEntries lists) :
    ∃ list ∈ lists, ∃ gv, ParseGroupVersion list.GroupVersion = .ok gv ∧
      ∃ r ∈ list.APIResources, r.Verbs ≠ [] ∧ e = catalogEntry gv r := by
  simp only [retainedEntries, List.mem_flatMap] at h
  obtain ⟨list, hl, he⟩ := h
  refine ⟨list, hl, ?_⟩
  unfold retainedOfList at he
  cases hp : ParseGroupVersion list.GroupVersion with
  | error err => rw [hp] at he; simp at he
  | ok gv =>
    rw [hp] at he
    simp only [List.mem_map, List.mem_filter, decide_eq_true_eq] at he
    obtain ⟨r, ⟨hr, hv⟩, rfl⟩ := he
    exact ⟨gv, rfl, r, hr, hv, rfl⟩

/-- An entry holds its fully-qualified name as a string. -/
theorem hasFqn_of_mem (lists : List APIResourceList) (e : apiResource)
    (h : e ∈ retainedEntries lists) :
    e "fully_qualified_name" = some (.string (fqnOf e)) := by
  obtain ⟨_, _, gv, _, r, _, _, rfl⟩ := mem_retainedEntries lists e h
  rfl

theorem lessFqn_eq (a b : apiResource)
    (ha : a "fully_qualified_name" = some (.string (fqnOf a)))
    (hb : b "fully_qualified_name" = some (.string (fqnOf b))) :
    lessFqn a b = some (strLess (fqnOf a) (fqnOf b)) := by
  unfold lessFqn
  rw [ha, hb]
  rfl

theorem fqnLess_strictWeak :
    StrictWeakOrdering (fun a b : apiResource => strLess (fqnOf a) (fqnOf b)) :=
  ⟨fun _ => strLess_irrefl _, fun _ _ _ => strLess_trans _ _ _,
    fun _ _ _ => strLess_negTrans _ _ _⟩

theorem buildResources_spec (L : Lib) (hL : L.sorter.Lawful) (lists : List APIResourceList) :
    ∃ cat, buildResources L lists = some cat ∧ cat.Perm (retainedEntries lists) ∧
      cat.Pairwise (fun a b => strLess (fqnOf b) (fqnOf a) = false) := by
  obtain ⟨out, hrun, hperm, hsorted⟩ :=
    hL lessFqn (fun a b => strLess (fqnOf a) (fqnOf b)) (retainedEntries lists)
      (fun a ha b hb => lessFqn_eq a b (hasFqn_of_mem lists a ha) (hasFqn_of_mem lists b hb))
      fqnLess_strictWeak
  refine ⟨out, ?_, hperm, hsorted⟩
  unfold buildResources
  simp only [collectResources_mapM, Option.bind_eq_bind, Option.some_bind]
  exact hrun

theorem writeNames_eq (l : List apiResource) (idsum : Hasher)
    (h : ∀ e ∈ l, e "fully_qualified_name" = some (.string (fqnOf e))) :
    writeNames idsum l = some (⟨idsum.written ++ (l.map fqnOf).flatten⟩, none) := by
  induction l generalizing idsum with
  | nil => simp [writeNames]
  | cons e l ih =>
    have he := h e (List.mem_cons_self _ _)
    simp only [writeNames, he, assertString, Option.bind_eq_bind, Option.some_bind,
      Hasher.Write]
    rw [ih _ (fun x hx => h x (List.mem_cons_of_mem _ hx))]
    simp

theorem read_spec (L : Lib) (hL : L.sorter.Lawful) (w : World) (d : ResourceData)
    (hc : w.clientErr = none) (hs : ∀ l, w.setErr l = none) :
    ∃ cat, buildResources L w.lists = some cat ∧
      cat.Perm (retainedEntries w.lists) ∧
      cat.Pairwise (fun a b => strLess (fqnOf b) (fqnOf a) = false) ∧
      dataSourceKubernetesAllApiResourcesRead L w d =
        some (none, { api_resources := some cat,
                      id := some (hexLower (L.sha256Sum (cat.map fqnOf).flatten)) }) := by
  obtain ⟨cat, hb, hperm, hsorted⟩ := buildResources_spec L hL w.lists
  refine ⟨cat, hb, hperm, hsorted, ?_⟩
  have hw := writeNames_eq cat Hasher.New
    (fun e he => hasFqn_of_mem w.lists e (hperm.mem_iff.mp he))
  simp only [Hasher.New, List.nil_append] at hw
  unfold dataSourceKubernetesAllApiResourcesRead
  simp only [hc, hb, hs, Option.bind_eq_bind, Option.some_bind, Hasher.Sum, Hasher.New, hw]

/-! ## What a read leaves in the record -/

theorem buildResources_eq (L : Lib) (lists : List APIResourceList) :
    buildResources L lists = L.sorter.run lessFqn (retainedEntries lists) := by
  unfold buildResources
  simp only [collectResources_mapM, Option.bind_eq_bind, Option.some_bind]

theorem read_congr (L : Lib) (w : World) (d : ResourceData) (lists : List APIResourceList)
    (h : retainedEntries lists = retainedEntries w.lists) :
    dataSourceKubernetesAllApiResourcesRead L { w with lists := lists } d =
      dataSourceKubernetesAllApiResourcesRead L w d := by
  unfold dataSourceKubernetesAllApiResourcesRead
  simp only [buildResources_eq, h]

theorem observations_spec (L : Lib) (hL : L.sorter.Lawful) (lists : List APIResourceList) :
    ∃ cat, cat.Perm (retainedEntries lists) ∧
      cat.Pairwise (fun a b => strLess (fqnOf b) (fqnOf a) = false) ∧
      catalogOf L lists = some cat ∧
      catalogNames L lists = some (cat.map fqnOf) ∧
      identifierOf L lists = some (hexLower (L.sha256Sum (cat.map fqnOf).flatten)) := by
  obtain ⟨cat, -, hperm, hsorted, hread⟩ :=
    read_spec L hL (World.ofLists lists) {} rfl (fun _ => rfl)
  have hcat : catalogOf L lists = some cat := by
    simp only [catalogOf, readRecord, hread, Option.map_some', Option.some_bind]
  refine ⟨cat, hperm, hsorted, hcat, ?_, ?_⟩
  · simp only [catalogNames, hcat, Option.map_some']
  · simp only [identifierOf, readRecord, hread, Option.map_some', Option.some_bind]

theorem hexDigit_inj : ∀ n m : Fin 16, hexDigit n.val = hexDigit m.val → n = m := by
  decide

theorem hexLower_inj (a b : List Byte) (h : hexLower a = hexLower b) : a = b := by
  induction a generalizing b with
  | nil =>
    cases b with
    | nil => rfl
    | cons y ys => simp [hexLower] at h
  | cons x xs ih =>
    cases b with
    | nil => simp [hexLower] at h
    | cons y ys =>
      simp only [hexLower, List.cons.injEq] at h
      obtain ⟨h1, h2, h3⟩ := h
      have hx : x.val / 16 < 16 := by omega
      have hy : y.val / 16 < 16 := by omega
      have hx' : x.val % 16 < 16 := by omega
      have hy' : y.val % 16 < 16 := by omega
      have e1 := hexDigit_inj ⟨x.val / 16, hx⟩ ⟨y.val / 16, hy⟩ h1
      have e2 := hexDigit_inj ⟨x.val % 16, hx'⟩ ⟨y.val % 16, hy'⟩ h2
      simp only [Fin.mk.injEq] at e1 e2
      have : x = y := by
        apply Fin.ext
        omega
      rw [this, ih ys h3]

theorem sortedNames_unique (n₁ n₂ : List GoString) (hp : n₁.Perm n₂)
    (h₁ : n₁.Pairwise (fun a b => strLess b a = false))
    (h₂ : n₂.Pairwise (fun a b => strLess b a = false)) : n₁ = n₂ := by
  haveI : IsAntisymm GoString (fun a b => strLess b a = false) :=
    ⟨fun a b hab hba => strLess_total a b hba hab⟩
  exact List.eq_of_perm_of_sorted hp h₁ h₂

theorem strLe_of_not_less (a b : GoString) (h : strLess b a = false) : strLe a b := by
  cases hab : strLess a b with
  | true => exact Or.inl hab
  | false => exact Or.inr (strLess_total a b hab h)

theorem catalogNames_of_perm (L : Lib) (hL : L.sorter.Lawful) (l₁ l₂ : List APIResourceList)
    (h : ((retainedEntries l₁).map fqnOf).Perm ((retainedEntries l₂).map fqnOf)) :
    catalogNames L l₁ = catalogNames L l₂ := by
  obtain ⟨c₁, hp₁, hs₁, -, hn₁, -⟩ := observations_spec L hL l₁
  obtain ⟨c₂, hp₂, hs₂, -, hn₂, -⟩ := observations_spec L hL l₂
  rw [hn₁, hn₂]
  congr 1
  apply sortedNames_unique
  · exact ((hp₁.map fqnOf).trans h).trans (hp₂.map fqnOf).symm
  · exact List.pairwise_map.mpr hs₁
  · exact List.pairwise_map.mpr hs₂

theorem identifierOf_of_names (L : Lib) (hL : L.sorter.Lawful) (l₁ l₂ : List APIResourceList)
    (h : catalogNames L l₁ = catalogNames L l₂) :
    identifierOf L l₁ = identifierOf L l₂ := by
  obtain ⟨c₁, -, -, -, hn₁, hi₁⟩ := observations_spec L hL l₁
  obtain ⟨c₂, -, -, -, hn₂, hi₂⟩ := observations_spec L hL l₂
  rw [hn₁, hn₂] at h
  rw [hi₁, hi₂, Option.some.inj h]

theorem parse_error_iff (s : GoString) :
    (∃ e, ParseGroupVersion s = .error e) ↔ 2 ≤ s.count slash := by
  unfold ParseGroupVersion
  constructor
  · rintro ⟨e, he⟩
    split at he
    · cases he
    · split at he
      · cases he
      · cases he
      · rename_i n h0 h1
        rcases hn : List.count slash s with _ | _ | k
        · exact absurd hn h0
        · exact absurd hn h1
        · omega
  · intro h
    have hne : ¬ (s.length = 0 ∨ s = [slash]) := by
      rintro (h0 | h1)
      · rw [List.length_eq_zero.mp h0] at h; simp at h
      · rw [h1] at h; simp at h
    rw [if_neg hne]
    split
    · rename_i h0; omega
    · rename_i h1; omega
    · exact ⟨_, rfl⟩

theorem retainedOfList_malformed (list : APIResourceList) (h : malformed list = true) :
    retainedOfList list = [] := by
  obtain ⟨e, he⟩ := (parse_error_iff list.GroupVersion).mpr (by simpa [malformed] using h)
  simp [retainedOfList, he]

theorem retainedEntries_filter (lists : List APIResourceList) :
    retainedEntries (lists.filter (fun l => !malformed l)) = retainedEntries lists := by
  induction lists with
  | nil => rfl
  | cons l ls ih =>
    simp only [retainedEntries, List.flatMap_cons] at ih ⊢
    cases hm : malformed l with
    | true =>
      simp only [List.filter_cons, hm, Bool.not_true, Bool.false_eq_true, if_false,
        retainedOfList_malformed l hm, List.nil_append]
      exact ih
    | false =>
      simp only [List.filter_cons, hm, Bool.not_false, if_true, List.flatMap_cons, ih]

/-! ## Comparing two discovery results -/

theorem retainedNames_resources (gv : GroupVersion) (as bs : List APIResource)
    (h : List.Forall₂ sameResourceName as bs) :
    (((as.filter (fun r => decide (r.Verbs ≠ []))).map (catalogEntry gv)).map fqnOf) =
      (((bs.filter (fun r => decide (r.Verbs ≠ []))).map (catalogEntry gv)).map fqnOf) := by
  induction h with
  | nil => rfl
  | @cons r r' as bs hr _ ih =>
    obtain ⟨hname, hverbs⟩ := hr
    have hd : decide (r.Verbs ≠ []) = decide (r'.Verbs ≠ []) := by
      rcases hverbs with h | ⟨h₁, h₂⟩
      · rw [h]
      · simp [h₁, h₂]
    simp only [List.filter_cons, hd]
    split
    · simp only [List.map_cons, fqnOf_catalogEntry, hname, ih]
    · exact ih

theorem retainedNames_list (a b : APIResourceList) (h : sameListNames a b) :
    (retainedOfList a).map fqnOf = (retainedOfList b).map fqnOf := by
  obtain ⟨hgv, hrs⟩ := h
  unfold retainedOfList
  rw [hgv]
  cases ParseGroupVersion b.GroupVersion with
  | error e => rfl
  | ok gv => exact retainedNames_resources gv _ _ hrs

theorem retainedNames_congr (l₁ l₂ : List APIResourceList) (h : sameNamesAndGroups l₁ l₂) :
    (retainedEntries l₁).map fqnOf = (retainedEntries l₂).map fqnOf := by
  unfold sameNamesAndGroups at h
  induction h with
  | nil => rfl
  | @cons a b l₁ l₂ hab _ ih =>
    simp only [retainedEntries, List.flatMap_cons, List.map_append] at ih ⊢
    rw [retainedNames_list a b hab, ih]

theorem retainedEntries_withDescriptor (pre post : List APIResourceList) (g : GoString)
    (gv : GroupVersion) (before after : List APIResource) (r : APIResource)
    (hg : ParseGroupVersion g = .ok gv) (hv : r.Verbs ≠ []) :
    (retainedEntries (withDescriptor pre post g before after r)).Perm
      (catalogEntry gv r :: retainedEntries (withoutDescriptor pre post g before after)) := by
  simp only [retainedEntries, withDescriptor, withoutDescriptor, List.flatMap_append,
    List.flatMap_cons, List.flatMap_nil, List.append_nil, retainedOfList, hg,
    List.filter_append, List.map_append, List.filter_cons, hv, ne_eq, not_false_eq_true,
    decide_True, if_true, List.filter_nil, List.map_cons, List.map_nil, List.append_assoc]
  refine List.Perm.trans ?_ List.perm_middle
  refine List.Perm.append_left _ ?_
  simp only [List.singleton_append, List.cons_append, List.nil_append]
  exact List.perm_middle

theorem fullyQualifiedName_ne_nil (name group : GoString) (h : name ≠ [] ∨ group ≠ []) :
    fullyQualifiedName name group ≠ [] := by
  unfold fullyQualifiedName
  by_cases hg : group = []
  · rw [if_pos hg]
    rcases h with h | h
    · exact h
    · exact absurd hg h
  · rw [if_neg hg]
    simp

theorem catalogNames_withDescriptor (L : Lib) (hL : L.sorter.Lawful)
    (pre post : List APIResourceList) (g : GoString)
    (gv : GroupVersion) (before after : List APIResource) (r : APIResource)
    (hg : ParseGroupVersion g = .ok gv) (hv : r.Verbs ≠ []) :
    ∃ n₁ n₂, catalogNames L (withoutDescriptor pre post g before after) = some n₁ ∧
      catalogNames L (withDescriptor pre post g before after r) = some n₂ ∧
      n₂.Perm (fullyQualifiedName r.Name gv.Group :: n₁) ∧
      identifierOf L (withoutDescriptor pre post g before after) =
        some (hexLower (L.sha256Sum n₁.flatten)) ∧
      identifierOf L (withDescriptor pre post g before after r) =
        some (hexLower (L.sha256Sum n₂.flatten)) := by
  obtain ⟨c₁, hp₁, -, -, hn₁, hi₁⟩ :=
    observations_spec L hL (withoutDescriptor pre post g before after)
  obtain ⟨c₂, hp₂, -, -, hn₂, hi₂⟩ :=
    observations_spec L hL (withDescriptor pre post g before after r)
  refine ⟨_, _, hn₁, hn₂, ?_, hi₁, hi₂⟩
  have h := (hp₂.trans (retainedEntries_withDescriptor pre post g gv before after r hg hv)).map
    fqnOf
  rw [List.map_cons, fqnOf_catalogEntry] at h
  exact h.trans (List.Perm.cons _ (hp₁.map fqnOf).symm)

/-! ## Properties of the read -/

theorem exampleNames_sorted (L : Lib) (hL : L.sorter.Lawful) :
    catalogNames L exampleLists = some [str "deployments.apps", str "pods"] ∧
    identifierOf L exampleLists =
      some (hexLower (L.sha256Sum (str "deployments.appspods"))) := by
  obtain ⟨cat, hp, hs, -, hn, hi⟩ := observations_spec L hL exampleLists
  have hnames : cat.map fqnOf = [str "deployments.apps", str "pods"] := by
    apply sortedNames_unique
    · have := hp.map fqnOf
      have h2 : (retainedEntries exampleLists).map fqnOf =
          [str "deployments.apps", str "pods"] := by decide
      rw [h2] at this
      exact this
    · exact List.pairwise_map.mpr hs
    · decide
  have hcat : [str "deployments.apps", str "pods"].flatten = str "deployments.appspods" := by
    decide
  rw [hn, hi, hnames, hcat]
  exact ⟨rfl, rfl⟩

set_option maxRecDepth 1000000 in
/-- Claim C1 (not met by the code): when `ServerPreferredResources` returns no lists
and a non-nil error while every other collaborator succeeds, the read returns `nil`,
writes an empty `api_resources` list and sets the record ID to the SHA-256 digest of
the empty string, instead of returning the error and writing nothing. -/
theorem discovery_error_not_propagated :
    discoveryFailure.discoveryErr = some (str "connection refused") ∧
    (dataSourceKubernetesAllApiResourcesRead stdLib discoveryFailure {}).map
        (fun r => (r.1, r.2.id, r.2.api_resources.map List.length)) =
      some (none,
        some (str "e3b0c44298fc1c149afbf4c8996fb92427ae41e4649b934ca495991b7852b855"),
        some 0) := by
  decide

/-- Claim C2: whenever the client is acquired and the write of `api_resources`
succeeds, the read returns `nil` and the record ID it sets is the lowercase
hexadecimal rendering of the SHA-256 digest of the concatenation, with no
separator, of the fully-qualified names of the entries of the written list, which
is in sorted order. For the example of the specification the names are
"deployments.apps", "pods" and the ID is the rendering of the digest of
"deployments.appspods". -/
theorem record_id_is_digest_of_sorted_names (L : Lib) (hL : L.sorter.Lawful) (w : World)
    (d : ResourceData) (hc : w.clientErr = none) (hs : ∀ l, w.setErr l = none) :
    (∃ cat, readWrites L w d cat (hexLower (L.sha256Sum (cat.map fqnOf).flatten)) ∧
      (∀ e ∈ cat, e "fully_qualified_name" = some (.string (fqnOf e))) ∧
      cat.Pairwise (fun a b => strLe (fqnOf a) (fqnOf b))) ∧
    catalogNames L exampleLists = some [str "deployments.apps", str "pods"] ∧
    identifierOf L exampleLists =
      some (hexLower (L.sha256Sum (str "deployments.appspods"))) := by
  obtain ⟨cat, -, hperm, hsorted, hread⟩ := read_spec L hL w d hc hs
  refine ⟨⟨cat, hread, ?_, ?_⟩, exampleNames_sorted L hL⟩
  · exact fun e he => hasFqn_of_mem w.lists e (hperm.mem_iff.mp he)
  · exact hsorted.imp (fun h => strLe_of_not_less _ _ h)

theorem record_id_is_digest_of_sorted_names_witness :
    stdLib.sorter.Lawful ∧
    (World.ofLists exampleLists).clientErr = none ∧
    (∀ l, (World.ofLists exampleLists).setErr l = none) ∧
    ((∃ cat, readWrites stdLib (World.ofLists exampleLists) {} cat
        (hexLower (stdLib.sha256Sum (cat.map fqnOf).flatten)) ∧
      (∀ e ∈ cat, e "fully_qualified_name" = some (.string (fqnOf e))) ∧
      cat.Pairwise (fun a b => strLe (fqnOf a) (fqnOf b))) ∧
    catalogNames stdLib exampleLists = some [str "deployments.apps", str "pods"] ∧
    identifierOf stdLib exampleLists =
      some (hexLower (stdLib.sha256Sum (str "deployments.appspods")))) :=
  ⟨stdSorter_lawful, rfl, fun _ => rfl,
    record_id_is_digest_of_sorted_names stdLib stdSorter_lawful (World.ofLists exampleLists) {}
      rfl (fun _ => rfl)⟩

/-- Claim C3: whenever the client is acquired and the write succeeds, the list
written to `api_resources` is sorted ascending by fully-qualified name under
byte-wise comparison: at positions `i < j` the name at `i` is at most the name at
`j`. -/
theorem api_resources_sorted_by_name (L : Lib) (hL : L.sorter.Lawful) (w : World)
    (d : ResourceData) (hc : w.clientErr = none) (hs : ∀ l, w.setErr l = none) :
    ∃ cat id, readWrites L w d cat id ∧
      ∀ i j : Fin cat.length, i < j → strLe (fqnOf (cat.get i)) (fqnOf (cat.get j)) := by
  obtain ⟨cat, -, -, hsorted, hread⟩ := read_spec L hL w d hc hs
  refine ⟨cat, _, hread, ?_⟩
  intro i j hij
  exact strLe_of_not_less _ _ (List.pairwise_iff_get.mp hsorted i j hij)

theorem api_resources_sorted_by_name_witness :
    stdLib.sorter.Lawful ∧
    (World.ofLists exampleLists).clientErr = none ∧
    (∀ l, (World.ofLists exampleLists).setErr l = none) ∧
    ∃ cat id, readWrites stdLib (World.ofLists exampleLists) {} cat id ∧
      ∀ i j : Fin cat.length, i < j → strLe (fqnOf (cat.get i)) (fqnOf (cat.get j)) :=
  ⟨stdSorter_lawful, rfl, fun _ => rfl,
    api_resources_sorted_by_name stdLib stdSorter_lawful (World.ofLists exampleLists) {}
      rfl (fun _ => rfl)⟩

/-- Claim C4: whenever the client is acquired and the write succeeds, the list
written to `api_resources` is a permutation of the retained entries: for every
resource list whose group-version string parses, one entry per descriptor with a
non-empty verb set, carrying the descriptor's name, short names, namespaced flag,
kind and verbs unchanged. Nothing is lost, duplicated or invented, and a list with
no resources contributes nothing. -/
theorem api_resources_perm_retained (L : Lib) (hL : L.sorter.Lawful) (w : World)
    (d : ResourceData) (hc : w.clientErr = none) (hs : ∀ l, w.setErr l = none) :
    (∃ cat id, readWrites L w d cat id ∧ cat.Perm (retainedEntries w.lists)) ∧
    (∀ gv r, catalogEntry gv r "name" = some (.string r.Name) ∧
      catalogEntry gv r "shortnames" = some (.strings r.ShortNames) ∧
      catalogEntry gv r "namespaced" = some (.bool r.Namespaced) ∧
      catalogEntry gv r "kind" = some (.string r.Kind) ∧
      catalogEntry gv r "verbs" = some (.strings r.Verbs)) ∧
    (∀ list : APIResourceList, list.APIResources = [] → retainedOfList list = []) := by
  obtain ⟨cat, -, hperm, -, hread⟩ := read_spec L hL w d hc hs
  refine ⟨⟨cat, _, hread, hperm⟩, fun gv r => ⟨rfl, rfl, rfl, rfl, rfl⟩, ?_⟩
  intro list h
  exact retainedOfList_nil list (by rw [h]; rfl)

theorem api_resources_perm_retained_witness :
    stdLib.sorter.Lawful ∧
    (World.ofLists exampleLists).clientErr = none ∧
    (∀ l, (World.ofLists exampleLists).setErr l = none) ∧
    ((∃ cat id, readWrites stdLib (World.ofLists exampleLists) {} cat id ∧
        cat.Perm (retainedEntries (World.ofLists exampleLists).lists)) ∧
    (∀ gv r, catalogEntry gv r "name" = some (.string r.Name) ∧
      catalogEntry gv r "shortnames" = some (.strings r.ShortNames) ∧
      catalogEntry gv r "namespaced" = some (.bool r.Namespaced) ∧
      catalogEntry gv r "kind" = some (.string r.Kind) ∧
      catalogEntry gv r "verbs" = some (.strings r.Verbs)) ∧
    (∀ list : APIResourceList, list.APIResources = [] → retainedOfList list = [])) :=
  ⟨stdSorter_lawful, rfl, fun _ => rfl,
    api_resources_perm_retained stdLib stdSorter_lawful (World.ofLists exampleLists) {}
      rfl (fun _ => rfl)⟩

/-- Claim C5: whenever the client is acquired and the write succeeds, every entry of
the list written to `api_resources` holds a name, a group and a fully-qualified
name, and the fully-qualified name is the name when the group is empty and the
name, a dot and the group otherwise. -/
theorem fully_qualified_name_of_entries (L : Lib) (hL : L.sorter.Lawful) (w : World)
    (d : ResourceData) (hc : w.clientErr = none) (hs : ∀ l, w.setErr l = none) :
    ∃ cat id, readWrites L w d cat id ∧
      ∀ e ∈ cat, ∃ name group,
        e "name" = some (.string name) ∧ e "api_group" = some (.string group) ∧
        e "fully_qualified_name" =
          some (.string (if group = [] then name else name ++ [dot] ++ group)) := by
  obtain ⟨cat, -, hperm, -, hread⟩ := read_spec L hL w d hc hs
  refine ⟨cat, _, hread, ?_⟩
  intro e he
  obtain ⟨_, _, gv, _, r, _, _, rfl⟩ := mem_retainedEntries w.lists e (hperm.mem_iff.mp he)
  exact ⟨r.Name, gv.Group, rfl, rfl, rfl⟩

theorem fully_qualified_name_of_entries_witness :
    stdLib.sorter.Lawful ∧
    (World.ofLists exampleLists).clientErr = none ∧
    (∀ l, (World.ofLists exampleLists).setErr l = none) ∧
    ∃ cat id, readWrites stdLib (World.ofLists exampleLists) {} cat id ∧
      ∀ e ∈ cat, ∃ name group,
        e "name" = some (.string name) ∧ e "api_group" = some (.string group) ∧
        e "fully_qualified_name" =
          some (.string (if group = [] then name else name ++ [dot] ++ group)) :=
  ⟨stdSorter_lawful, rfl, fun _ => rfl,
    fully_qualified_name_of_entries stdLib stdSorter_lawful (World.ofLists exampleLists) {}
      rfl (fun _ => rfl)⟩

/-- Claim C6: whenever the client is acquired and the write succeeds, every entry of
the list written to `api_resources` holds a non-empty collection of verbs. -/
theorem entries_have_verbs (L : Lib) (hL : L.sorter.Lawful) (w : World)
    (d : ResourceData) (hc : w.clientErr = none) (hs : ∀ l, w.setErr l = none) :
    ∃ cat id, readWrites L w d cat id ∧
      ∀ e ∈ cat, ∃ verbs, e "verbs" = some (.strings verbs) ∧ verbs ≠ [] := by
  obtain ⟨cat, -, hperm, -, hread⟩ := read_spec L hL w d hc hs
  refine ⟨cat, _, hread, ?_⟩
  intro e he
  obtain ⟨_, _, gv, _, r, _, hv, rfl⟩ := mem_retainedEntries w.lists e (hperm.mem_iff.mp he)
  exact ⟨r.Verbs, rfl, hv⟩

theorem entries_have_verbs_witness :
    stdLib.sorter.Lawful ∧
    (World.ofLists exampleLists).clientErr = none ∧
    (∀ l, (World.ofLists exampleLists).setErr l = none) ∧
    ∃ cat id, readWrites stdLib (World.ofLists exampleLists) {} cat id ∧
      ∀ e ∈ cat, ∃ verbs, e "verbs" = some (.strings verbs) ∧ verbs ≠ [] :=
  ⟨stdSorter_lawful, rfl, fun _ => rfl,
    entries_have_verbs stdLib stdSorter_lawful (World.ofLists exampleLists) {}
      rfl (fun _ => rfl)⟩

set_option maxRecDepth 1000000 in
/-- Claim C7, refuted as stated: core resources named "a" and "bc" and core
resources named "ab" and "c" give different sequences of fully-qualified names and
the same identifier, the digest of "abc". -/
theorem identifier_same_for_different_names :
    catalogNames stdLib splitNamesA = some [str "a", str "bc"] ∧
    catalogNames stdLib splitNamesB = some [str "ab", str "c"] ∧
    catalogNames stdLib splitNamesA ≠ catalogNames stdLib splitNamesB ∧
    identifierOf stdLib splitNamesA = identifierOf stdLib splitNamesB ∧
    identifierOf stdLib splitNamesA =
      some (str "ba7816bf8f01cfea414140de5dae2223b00361a396177a9cb410ff61f20015ad") := by
  decide

/-- Claim C7, amended: for any two discovery results the identifiers are equal
exactly when the SHA-256 digests of the separator-free concatenations of their
sorted fully-qualified names are equal; so equal name sequences give equal
identifiers. -/
theorem identifier_determined_by_concatenation (L : Lib) (hL : L.sorter.Lawful)
    (l₁ l₂ : List APIResourceList) :
    ∃ n₁ n₂, catalogNames L l₁ = some n₁ ∧ catalogNames L l₂ = some n₂ ∧
      (n₁ = n₂ → identifierOf L l₁ = identifierOf L l₂) ∧
      (identifierOf L l₁ = identifierOf L l₂ ↔
        L.sha256Sum n₁.flatten = L.sha256Sum n₂.flatten) := by
  obtain ⟨c₁, -, -, -, hn₁, hi₁⟩ := observations_spec L hL l₁
  obtain ⟨c₂, -, -, -, hn₂, hi₂⟩ := observations_spec L hL l₂
  refine ⟨_, _, hn₁, hn₂, ?_, ?_⟩
  · intro h
    rw [hi₁, hi₂, h]
  · rw [hi₁, hi₂]
    constructor
    · intro h
      exact hexLower_inj _ _ (Option.some.inj h)
    · intro h
      rw [h]

theorem identifier_determined_by_concatenation_witness :
    stdLib.sorter.Lawful ∧
    ∃ n₁ n₂, catalogNames stdLib splitNamesA = some n₁ ∧
      catalogNames stdLib splitNamesB = some n₂ ∧
      (n₁ = n₂ → identifierOf stdLib splitNamesA = identifierOf stdLib splitNamesB) ∧
      (identifierOf stdLib splitNamesA = identifierOf stdLib splitNamesB ↔
        stdLib.sha256Sum n₁.flatten = stdLib.sha256Sum n₂.flatten) :=
  ⟨stdSorter_lawful,
    identifier_determined_by_concatenation stdLib stdSorter_lawful splitNamesA splitNamesB⟩

set_option maxRecDepth 1000000 in
/-- Claim C8, refuted as stated: adding to the core list "v1" a descriptor with a
verb and the empty name adds an entry to the catalog and leaves the identifier
unchanged. -/
theorem identifier_same_after_adding_entry :
    (ParseGroupVersion (str "v1")).toOption = some ⟨[], str "v1"⟩ ∧
    unnamedResource.Verbs ≠ [] ∧
    (catalogOf stdLib (withoutDescriptor [] [] (str "v1") podsOnly [])).map List.length =
      some 1 ∧
    (catalogOf stdLib (withDescriptor [] [] (str "v1") podsOnly [] unnamedResource)).map
      List.length = some 2 ∧
    identifierOf stdLib (withDescriptor [] [] (str "v1") podsOnly [] unnamedResource) =
      identifierOf stdLib (withoutDescriptor [] [] (str "v1") podsOnly []) := by
  decide

/-- Claim C8, amended: adding to a list whose group-version string parses a
descriptor with a non-empty verb set and a non-empty fully-qualified name (a
non-empty name, or a non-empty group) adds that name to the sorted names and makes
the byte string that is hashed strictly longer; the identifier then changes unless
SHA-256 gives the two different strings the same digest. -/
theorem added_descriptor_changes_hashed_string (L : Lib) (hL : L.sorter.Lawful)
    (pre post : List APIResourceList) (g : GoString) (gv : GroupVersion)
    (before after : List APIResource) (r : APIResource)
    (hg : ParseGroupVersion g = .ok gv) (hv : r.Verbs ≠ [])
    (hn : r.Name ≠ [] ∨ gv.Group ≠ []) :
    ∃ n₁ n₂, catalogNames L (withoutDescriptor pre post g before after) = some n₁ ∧
      catalogNames L (withDescriptor pre post g before after r) = some n₂ ∧
      n₂.Perm (fullyQualifiedName r.Name gv.Group :: n₁) ∧
      n₁.flatten.length < n₂.flatten.length ∧
      (identifierOf L (withDescriptor pre post g before after r) =
          identifierOf L (withoutDescriptor pre post g before after) ↔
        L.sha256Sum n₂.flatten = L.sha256Sum n₁.flatten) := by
  obtain ⟨n₁, n₂, hn₁, hn₂, hperm, hi₁, hi₂⟩ :=
    catalogNames_withDescriptor L hL pre post g gv before after r hg hv
  refine ⟨n₁, n₂, hn₁, hn₂, hperm, ?_, ?_⟩
  · have hlen := hperm.flatten.length_eq
    rw [List.flatten_cons, List.length_append] at hlen
    have hpos : 0 < (fullyQualifiedName r.Name gv.Group).length :=
      List.length_pos.mpr (fullyQualifiedName_ne_nil _ _ hn)
    omega
  · rw [hi₁, hi₂]
    constructor
    · intro h
      exact hexLower_inj _ _ (Option.some.inj h)
    · intro h
      rw [h]

theorem added_descriptor_changes_hashed_string_witness :
    ParseGroupVersion (str "apps/v1") = .ok ⟨str "apps", str "v1"⟩ ∧
    ({ Name := str "deployments", Verbs := [str "get"] } : APIResource).Verbs ≠ [] ∧
    (({ Name := str "deployments", Verbs := [str "get"] } : APIResource).Name ≠ [] ∨
      (⟨str "apps", str "v1"⟩ : GroupVersion).Group ≠ []) ∧
    ∃ n₁ n₂,
      catalogNames stdLib (withoutDescriptor [] exampleLists (str "apps/v1") [] []) = some n₁ ∧
      catalogNames stdLib (withDescriptor [] exampleLists (str "apps/v1") [] []
        { Name := str "deployments", Verbs := [str "get"] }) = some n₂ ∧
      n₂.Perm (fullyQualifiedName (str "deployments") (str "apps") :: n₁) ∧
      n₁.flatten.length < n₂.flatten.length ∧
      (identifierOf stdLib (withDescriptor [] exampleLists (str "apps/v1") [] []
          { Name := str "deployments", Verbs := [str "get"] }) =
          identifierOf stdLib (withoutDescriptor [] exampleLists (str "apps/v1") [] []) ↔
        stdLib.sha256Sum n₂.flatten = stdLib.sha256Sum n₁.flatten) :=
  ⟨rfl, by decide, Or.inl (by decide),
    added_descriptor_changes_hashed_string stdLib stdSorter_lawful [] exampleLists
      (str "apps/v1") ⟨str "apps", str "v1"⟩ [] []
      { Name := str "deployments", Verbs := [str "get"] } rfl (by decide)
      (Or.inl (by decide))⟩

/-- Claim C9: two discovery results whose lists and descriptors correspond one to
one with the same group-version strings and the same names, every changed verb set
being non-empty before and after, get the same identifier, whatever the short
names, namespaced flags, kinds and verbs are. -/
theorem identifier_ignores_attributes (L : Lib) (hL : L.sorter.Lawful)
    (l₁ l₂ : List APIResourceList) (h : sameNamesAndGroups l₁ l₂) :
    ∃ id, identifierOf L l₁ = some id ∧ identifierOf L l₂ = some id := by
  have hnames := catalogNames_of_perm L hL l₁ l₂ (by rw [retainedNames_congr l₁ l₂ h])
  have hid := identifierOf_of_names L hL l₁ l₂ hnames
  obtain ⟨c₁, -, -, -, -, hi₁⟩ := observations_spec L hL l₁
  exact ⟨_, hi₁, by rw [← hid, hi₁]⟩

theorem identifier_ignores_attributes_witness :
    stdLib.sorter.Lawful ∧ sameNamesAndGroups exampleLists exampleListsRelabelled ∧
    ∃ id, identifierOf stdLib exampleLists = some id ∧
      identifierOf stdLib exampleListsRelabelled = some id :=
  have h : sameNamesAndGroups exampleLists exampleListsRelabelled :=
    List.Forall₂.cons
      ⟨rfl, List.Forall₂.cons ⟨rfl, Or.inr ⟨by decide, by decide⟩⟩ List.Forall₂.nil⟩
      (List.Forall₂.cons
        ⟨rfl, List.Forall₂.cons ⟨rfl, Or.inr ⟨by decide, by decide⟩⟩
          (List.Forall₂.cons ⟨rfl, Or.inl rfl⟩ List.Forall₂.nil)⟩
        List.Forall₂.nil)
  ⟨stdSorter_lawful, h,
    identifier_ignores_attributes stdLib stdSorter_lawful exampleLists exampleListsRelabelled h⟩

/-- Claim C10: a resource list is malformed, its group-version string having more
than one `/`, exactly when the string does not parse. Whenever the client is
acquired and the write succeeds, the read of any mix of malformed and well-formed
lists returns `nil`, does exactly what it does on the input with the malformed
lists removed, and every entry it writes comes from a descriptor of a well-formed
list. -/
theorem malformed_lists_skipped (L : Lib) (hL : L.sorter.Lawful) (w : World)
    (d : ResourceData) (hc : w.clientErr = none) (hs : ∀ l, w.setErr l = none) :
    (∀ list : APIResourceList,
      malformed list = true ↔ ∃ e, ParseGroupVersion list.GroupVersion = .error e) ∧
    ∃ cat id, readWrites L w d cat id ∧
      dataSourceKubernetesAllApiResourcesRead L
          { w with lists := w.lists.filter (fun l => !malformed l) } d =
        dataSourceKubernetesAllApiResourcesRead L w d ∧
      ∀ e ∈ cat, ∃ list ∈ w.lists, malformed list = false ∧
        ∃ gv, ParseGroupVersion list.GroupVersion = .ok gv ∧
          ∃ r ∈ list.APIResources, r.Verbs ≠ [] ∧ e = catalogEntry gv r := by
  have hmal : ∀ list : APIResourceList,
      malformed list = true ↔ ∃ e, ParseGroupVersion list.GroupVersion = .error e := by
    intro list
    rw [parse_error_iff]
    simp [malformed]
  obtain ⟨cat, -, hperm, -, hread⟩ := read_spec L hL w d hc hs
  refine ⟨hmal, cat, _, hread, read_congr L w d _ (retainedEntries_filter w.lists), ?_⟩
  intro e he
  obtain ⟨list, hl, gv, hgv, r, hr, hv, rfl⟩ :=
    mem_retainedEntries w.lists e (hperm.mem_iff.mp he)
  refine ⟨list, hl, ?_, gv, hgv, r, hr, hv, rfl⟩
  cases hm : malformed list with
  | false => rfl
  | true =>
    obtain ⟨err, herr⟩ := (hmal list).mp hm
    rw [hgv] at herr
    cases herr

theorem malformed_lists_skipped_witness :
    stdLib.sorter.Lawful ∧
    (World.ofLists exampleListsWithMalformed).clientErr = none ∧
    (∀ l, (World.ofLists exampleListsWithMalformed).setErr l = none) ∧
    (exampleListsWithMalformed.map malformed = [true, false, false, true]) ∧
    ((∀ list : APIResourceList,
      malformed list = true ↔ ∃ e, ParseGroupVersion list.GroupVersion = .error e) ∧
    ∃ cat id, readWrites stdLib (World.ofLists exampleListsWithMalformed) {} cat id ∧
      dataSourceKubernetesAllApiResourcesRead stdLib
          { World.ofLists exampleListsWithMalformed with
            lists := (World.ofLists exampleListsWithMalformed).lists.filter
              (fun l => !malformed l) } {} =
        dataSourceKubernetesAllApiResourcesRead stdLib
          (World.ofLists exampleListsWithMalformed) {} ∧
      ∀ e ∈ cat, ∃ list ∈ (World.ofLists exampleListsWithMalformed).lists,
        malformed list = false ∧
        ∃ gv, ParseGroupVersion list.GroupVersion = .ok gv ∧
          ∃ r ∈ list.APIResources, r.Verbs ≠ [] ∧ e = catalogEntry gv r) :=
  ⟨stdSorter_lawful, rfl, fun _ => rfl, by decide,
    malformed_lists_skipped stdLib stdSorter_lawful (World.ofLists exampleListsWithMalformed) {}
      rfl (fun _ => rfl)⟩

/-! ## The sorter of older releases meets the contract of `sort.Slice` -/

theorem gapPass_spec (less : apiResource → apiResource → Option Bool)
    (lt : apiResource → apiResource → Bool) (rest window : List apiResource)
    (hless : ∀ a ∈ window ++ rest, ∀ b ∈ window ++ rest, less a b = some (lt a b)) :
    ∃ out, gapPass less window rest = some out ∧ out.Perm (window ++ rest) := by
  induction rest generalizing window with
  | nil => exact ⟨window, by cases window <;> rfl, by simp⟩
  | cons x xs ih =>
    cases window with
    | nil => exact ⟨x :: xs, rfl, by simp⟩
    | cons y ws =>
      have hxy : less x y = some (lt x y) := hless x (by simp) y (by simp)
      cases hlt : lt x y with
      | true =>
        obtain ⟨out, hout, hperm⟩ := ih (ws ++ [y]) (fun a ha b hb =>
          hless a (by simp at ha ⊢; tauto) b (by simp at hb ⊢; tauto))
        refine ⟨x :: out, ?_, ?_⟩
        · simp [gapPass, hxy, hlt, hout]
        · refine (List.Perm.cons x hperm).trans ?_
          have h1 : (x :: (ws ++ [y] ++ xs)).Perm (x :: y :: (ws ++ xs)) := by
            refine List.Perm.cons x ?_
            rw [List.append_assoc]
            simp
          refine h1.trans ?_
          refine (List.Perm.swap y x _).trans ?_
          refine List.Perm.cons y ?_
          exact List.perm_middle.symm
      | false =>
        obtain ⟨out, hout, hperm⟩ := ih (ws ++ [x]) (fun a ha b hb =>
          hless a (by simp at ha ⊢; tauto) b (by simp at hb ⊢; tauto))
        refine ⟨y :: out, ?_, ?_⟩
        · simp [gapPass, hxy, hlt, hout]
        · refine List.Perm.cons y (hperm.trans ?_)
          rw [List.append_assoc]
          rfl

theorem legacySorter_lawful : legacySorter.Lawful := by
  intro less lt l hless hlt
  have hsplit : l.take 6 ++ l.drop 6 = l := List.take_append_drop 6 l
  obtain ⟨mid, hmid, hperm⟩ := gapPass_spec less lt (l.drop 6) (l.take 6)
    (by rw [hsplit]; exact hless)
  rw [hsplit] at hperm
  obtain ⟨out, hout, hp, hs⟩ := insertionSort_foldlM less lt hlt mid []
    (fun a ha b hb => hless a (hperm.mem_iff.mp ha) b
      (hperm.mem_iff.mp (by simpa using hb))) List.Pairwise.nil
  refine ⟨out, ?_, ?_, hs⟩
  · show legacySort less l = some out
    unfold legacySort
    simp only [hmid, Option.bind_eq_bind, Option.some_bind]
    exact hout
  · exact (by simpa using hp : out.Perm mid).trans hperm

/-! ## Distinct fully-qualified names -/

theorem append_dot_inj (a b x y : GoString) (ha : dot ∉ a) (hb : dot ∉ b)
    (h : a ++ dot :: x = b ++ dot :: y) : a = b ∧ x = y := by
  induction a generalizing b with
  | nil =>
    cases b with
    | nil => simpa using h
    | cons c cs =>
      simp only [List.nil_append, List.cons_append, List.cons.injEq] at h
      exact absurd (h.1 ▸ List.mem_cons_self _ _) hb
  | cons c cs ih =>
    cases b with
    | nil =>
      simp only [List.nil_append, List.cons_append, List.cons.injEq] at h
      exact absurd (h.1 ▸ List.mem_cons_self _ _) ha
    | cons e es =>
      simp only [List.cons_append, List.cons.injEq] at h
      obtain ⟨h1, h2⟩ := h
      obtain ⟨h3, h4⟩ := ih es (fun hm => ha (List.mem_cons_of_mem _ hm))
        (fun hm => hb (List.mem_cons_of_mem _ hm)) h2
      exact ⟨by rw [h1, h3], h4⟩

theorem fullyQualifiedName_inj (n₁ g₁ n₂ g₂ : GoString) (h₁ : dot ∉ n₁) (h₂ : dot ∉ n₂)
    (h : fullyQualifiedName n₁ g₁ = fullyQualifiedName n₂ g₂) : n₁ = n₂ ∧ g₁ = g₂ := by
  unfold fullyQualifiedName at h
  by_cases e₁ : g₁ = [] <;> by_cases e₂ : g₂ = []
  · simp only [e₁, e₂, if_true] at h
    exact ⟨h, by rw [e₁, e₂]⟩
  · simp only [e₁, e₂, if_true, if_false] at h
    exact absurd (h ▸ (by simp : dot ∈ n₂ ++ [dot] ++ g₂)) h₁
  · simp only [e₁, e₂, if_true, if_false] at h
    exact absurd (h ▸ (by simp : dot ∈ n₁ ++ [dot] ++ g₁)) h₂
  · simp only [e₁, e₂, if_false, List.append_assoc, List.singleton_append] at h
    exact append_dot_inj n₁ n₂ g₁ g₂ h₁ h₂ h

theorem retainedNames_eq_keys (lists : List APIResourceList) :
    (retainedEntries lists).map fqnOf =
      (retainedKeys lists).map (fun k => fullyQualifiedName k.2 k.1) := by
  induction lists with
  | nil => rfl
  | cons l ls ih =>
    simp only [retainedEntries, retainedKeys, List.flatMap_cons, List.map_append] at ih ⊢
    rw [ih]
    congr 1
    unfold retainedOfList retainedKeysOfList
    cases ParseGroupVersion l.GroupVersion with
    | error e => rfl
    | ok gv =>
      simp only [List.map_map]
      rfl

theorem retainedNames_nodup (lists : List APIResourceList)
    (hkeys : (retainedKeys lists).Nodup) (hdot : ∀ k ∈ retainedKeys lists, dot ∉ k.2) :
    ((retainedEntries lists).map fqnOf).Nodup := by
  rw [retainedNames_eq_keys]
  refine List.Nodup.map_on ?_ hkeys
  intro k₁ hk₁ k₂ hk₂ h
  obtain ⟨h1, h2⟩ := fullyQualifiedName_inj _ _ _ _ (hdot k₁ hk₁) (hdot k₂ hk₂) h
  exact Prod.ext h2 h1

theorem sorted_nodup_strict (names : List GoString)
    (hs : names.Pairwise (fun a b => strLess b a = false)) (hn : names.Nodup) :
    names.Pairwise (fun a b => strLess a b = true) := by
  have := hs.and hn
  refine this.imp ?_
  rintro a b ⟨h1, h2⟩
  cases hab : strLess a b with
  | true => rfl
  | false => exact absurd (strLess_total a b hab h1) h2

/-! ## The entries before the name pass -/

theorem appendResources_mem (gv : GroupVersion) (acc : List apiResource) (rs : List APIResource)
    (P : apiResource → Prop) (hacc : ∀ e ∈ acc, P e) (hnew : ∀ r, P (newEntry gv r)) :
    ∀ e ∈ appendResources gv acc rs, P e := by
  rw [appendResources_eq]
  intro e he
  rcases List.mem_append.mp he with h | h
  · exact hacc e h
  · obtain ⟨r, -, rfl⟩ := List.mem_map.mp h
    exact hnew r

theorem collectResources_mem (lists : List APIResourceList) (e : apiResource)
    (he : e ∈ collectResources lists) : ∃ gv r, e = newEntry gv r := by
  have key : ∀ (ls : List APIResourceList) (acc : List apiResource),
      (∀ x ∈ acc, ∃ gv r, x = newEntry gv r) →
      ∀ x ∈ ls.foldl
        (fun resources list =>
          if list.APIResources.length = 0 then resources
          else
            match ParseGroupVersion list.GroupVersion with
            | .error _ => resources
            | .ok gv => appendResources gv resources list.APIResources)
        acc, ∃ gv r, x = newEntry gv r := by
    intro ls
    induction ls with
    | nil => intro acc h; simpa using h
    | cons l ls ih =>
      intro acc h
      rw [List.foldl_cons]
      apply ih
      split
      · exact h
      · split
        · exact h
        · rename_i gv _
          exact appendResources_mem gv acc _ _ h (fun r => ⟨gv, r, rfl⟩)
  exact key lists [] (by simp) e he

/-! ## Group-version strings that parse -/

theorem parse_no_slash (s : GoString) (h : s.count slash = 0) :
    ∃ gv, ParseGroupVersion s = .ok gv ∧ gv.Group = [] ∧ gv.String = s := by
  unfold ParseGroupVersion
  by_cases h0 : s.length = 0 ∨ s = [slash]
  · rw [if_pos h0]
    rcases h0 with h0 | h0
    · exact ⟨_, rfl, rfl, by rw [List.length_eq_zero.mp h0]; rfl⟩
    · rw [h0] at h; simp at h
  · rw [if_neg h0, h]
    exact ⟨_, rfl, rfl, rfl⟩

theorem parse_group_slash (g v : GoString) (hg : g ≠ []) (hgs : slash ∉ g) (hvs : slash ∉ v) :
    ∃ gv, ParseGroupVersion (g ++ [slash] ++ v) = .ok gv ∧ gv.Group = g ∧
      gv.String = g ++ [slash] ++ v := by
  have hcount : (g ++ [slash] ++ v).count slash = 1 := by
    simp [List.count_append, List.count_eq_zero_of_not_mem hgs,
      List.count_eq_zero_of_not_mem hvs]
  have hidx : (g ++ [slash] ++ v).indexOf slash = g.length := by
    rw [List.append_assoc, List.indexOf_append_of_not_mem hgs]
    simp
  have h0 : ¬ ((g ++ [slash] ++ v).length = 0 ∨ g ++ [slash] ++ v = [slash]) := by
    rintro (h | h)
    · simp at h
    · cases g with
      | nil => exact hg rfl
      | cons a as =>
        have := congrArg List.length h
        simp at this
  have hidx' : (g ++ slash :: v).indexOf slash = g.length := by
    simpa using hidx
  have htake : (g ++ slash :: v).take g.length = g := by
    simp
  have hdrop : (g ++ slash :: v).drop (g.length + 1) = v := by
    rw [← List.drop_drop]
    simp
  unfold ParseGroupVersion
  rw [if_neg h0, hcount]
  refine ⟨_, rfl, ?_, ?_⟩
  · simp [hidx', htake]
  · have hlen : 0 < g.length := List.length_pos.mpr hg
    simp [GroupVersion.String, hidx', htake, hdrop, hlen]

/-! ## Reordered discovery results -/

theorem retainedOfList_perm (a b : APIResourceList) (h : sameListReordered a b) :
    (retainedOfList a).Perm (retainedOfList b) := by
  obtain ⟨hgv, hp⟩ := h
  unfold retainedOfList
  rw [hgv]
  cases ParseGroupVersion b.GroupVersion with
  | error e => exact List.Perm.refl _
  | ok gv => exact (hp.filter _).map _

theorem retainedEntries_forall₂ (l₁ l₂ : List APIResourceList)
    (h : List.Forall₂ sameListReordered l₁ l₂) :
    (retainedEntries l₁).Perm (retainedEntries l₂) := by
  unfold retainedEntries
  induction h with
  | nil => exact List.Perm.refl _
  | @cons a b as bs hab _ ih =>
    simp only [List.flatMap_cons]
    exact (retainedOfList_perm a b hab).append ih

theorem retainedEntries_reordered (l₁ l₂ : List APIResourceList) (h : reordered l₁ l₂) :
    (retainedEntries l₁).Perm (retainedEntries l₂) := by
  obtain ⟨l, hp, hf⟩ := h
  exact (hp.flatMap_right retainedOfList).trans (retainedEntries_forall₂ l l₂ hf)

/-! ## Further properties of the read -/

theorem read_of_build (L : Lib) (w : World) (d : ResourceData) (cat : List apiResource)
    (hc : w.clientErr = none) (hb : buildResources L w.lists = some cat)
    (hf : ∀ e ∈ cat, e "fully_qualified_name" = some (.string (fqnOf e))) :
    dataSourceKubernetesAllApiResourcesRead L w d =
      match w.setErr cat with
      | some err => some (some err, d)
      | none =>
        some (none, { api_resources := some cat,
                      id := some (hexLower (L.sha256Sum (cat.map fqnOf).flatten)) }) := by
  have hw := writeNames_eq cat Hasher.New hf
  simp only [Hasher.New, List.nil_append] at hw
  unfold dataSourceKubernetesAllApiResourcesRead
  cases hse : w.setErr cat <;>
    simp only [hc, hb, hse, Option.bind_eq_bind, Option.some_bind, Hasher.Sum, Hasher.New, hw]

set_option maxRecDepth 1000000 in
/-- Claim C11, refuted as stated: the lists `apps/v1` and `apps/v1beta1`, each with
the resource `deployments`, have pairwise distinct (group-version string, name)
pairs, and the catalog holds the fully-qualified name "deployments.apps" twice. -/
theorem same_name_in_two_versions :
    (descriptorKeys twoVersions).Nodup ∧
    catalogNames stdLib twoVersions =
      some [str "deployments.apps", str "deployments.apps"] := by
  decide

/-- Claim C11, amended: when the (group, resource name) pairs of the retained
descriptors are pairwise distinct and no resource name contains a dot, no two
entries of the catalog have the same fully-qualified name and the catalog is
strictly ascending. -/
theorem distinct_names_strictly_ascending (L : Lib) (hL : L.sorter.Lawful)
    (lists : List APIResourceList) (hkeys : (retainedKeys lists).Nodup)
    (hdot : ∀ k ∈ retainedKeys lists, dot ∉ k.2) :
    ∃ names, catalogNames L lists = some names ∧ names.Nodup ∧
      names.Pairwise (fun a b => strLess a b = true) := by
  obtain ⟨cat, hp, hs, -, hn, -⟩ := observations_spec L hL lists
  have hnodup : (cat.map fqnOf).Nodup :=
    (hp.map fqnOf).nodup_iff.mpr (retainedNames_nodup lists hkeys hdot)
  exact ⟨_, hn, hnodup, sorted_nodup_strict _ (List.pairwise_map.mpr hs) hnodup⟩

theorem distinct_names_strictly_ascending_witness :
    stdLib.sorter.Lawful ∧ (retainedKeys exampleLists).Nodup ∧
    (∀ k ∈ retainedKeys exampleLists, dot ∉ k.2) ∧
    ∃ names, catalogNames stdLib exampleLists = some names ∧ names.Nodup ∧
      names.Pairwise (fun a b => strLess a b = true) :=
  ⟨stdSorter_lawful, by decide, by decide,
    distinct_names_strictly_ascending stdLib stdSorter_lawful exampleLists (by decide)
      (by decide)⟩

/-- Claim C12: once the client is acquired the transform yields a list; when
`d.Set` refuses it the read returns the error of `d.Set` and leaves the record ID
as it was, and when `d.Set` accepts it the read returns `nil` with the list and the
ID written. -/
theorem set_failure_returned (L : Lib) (hL : L.sorter.Lawful) (w : World)
    (d : ResourceData) (hc : w.clientErr = none) :
    ∃ cat, buildResources L w.lists = some cat ∧
      (∀ err, w.setErr cat = some err →
        ∃ d', dataSourceKubernetesAllApiResourcesRead L w d = some (some err, d') ∧
          d'.id = d.id) ∧
      (w.setErr cat = none → ∃ id, readWrites L w d cat id) := by
  obtain ⟨cat, hb, hperm, -⟩ := buildResources_spec L hL w.lists
  have hread := read_of_build L w d cat hc hb
    (fun e he => hasFqn_of_mem w.lists e (hperm.mem_iff.mp he))
  refine ⟨cat, hb, ?_, ?_⟩
  · intro err herr
    rw [herr] at hread
    exact ⟨d, hread, rfl⟩
  · intro hnone
    rw [hnone] at hread
    exact ⟨_, hread⟩

theorem set_failure_returned_witness :
    stdLib.sorter.Lawful ∧ setRefused.clientErr = none ∧
    (∀ l, setRefused.setErr l = some (str "invalid value")) ∧
    ∃ cat, buildResources stdLib setRefused.lists = some cat ∧
      (∀ err, setRefused.setErr cat = some err →
        ∃ d', dataSourceKubernetesAllApiResourcesRead stdLib setRefused {} =
            some (some err, d') ∧
          d'.id = ({} : ResourceData).id) ∧
      (setRefused.setErr cat = none → ∃ id, readWrites stdLib setRefused {} cat id) :=
  ⟨stdSorter_lawful, rfl, fun _ => rfl,
    set_failure_returned stdLib stdSorter_lawful setRefused {} rfl⟩

/-- Claim C13: for every answer of discovery, once the client is acquired and
`d.Set` accepts the list, the read returns `nil` without a panic: every entry built
by the first loop holds `name` and `api_group` as strings, the name pass succeeds
on every entry, the comparator succeeds on every pair of entries, the sort returns,
and every sorted entry holds `fully_qualified_name` as a string for the hash. -/
theorem read_never_fails (L : Lib) (hL : L.sorter.Lawful) (w : World)
    (d : ResourceData) (hc : w.clientErr = none) (hs : ∀ l, w.setErr l = none) :
    (∃ cat id, readWrites L w d cat id) ∧
    (∀ e ∈ collectResources w.lists, ∃ name group,
      assertString (e "name") = some name ∧ assertString (e "api_group") = some group) ∧
    ∃ rs, (collectResources w.lists).mapM setFullyQualifiedName = some rs ∧
      (∀ a ∈ rs, ∀ b ∈ rs, ∃ r, lessFqn a b = some r) ∧
      ∃ cat, L.sorter.run lessFqn rs = some cat ∧
        ∀ e ∈ cat, ∃ s, assertString (e "fully_qualified_name") = some s := by
  obtain ⟨cat, hb, hperm, -, hread⟩ := read_spec L hL w d hc hs
  refine ⟨⟨cat, _, hread⟩, ?_, retainedEntries w.lists, collectResources_mapM w.lists, ?_,
    cat, ?_, ?_⟩
  · intro e he
    obtain ⟨gv, r, rfl⟩ := collectResources_mem w.lists e he
    exact ⟨r.Name, gv.Group, rfl, rfl⟩
  · intro a ha b hb'
    exact ⟨_, lessFqn_eq a b (hasFqn_of_mem w.lists a ha) (hasFqn_of_mem w.lists b hb')⟩
  · rw [← buildResources_eq]
    exact hb
  · intro e he
    have := hasFqn_of_mem w.lists e (hperm.mem_iff.mp he)
    exact ⟨fqnOf e, by rw [this]; rfl⟩

theorem read_never_fails_witness :
    stdLib.sorter.Lawful ∧ (World.ofLists exampleListsWithMalformed).clientErr = none ∧
    (∀ l, (World.ofLists exampleListsWithMalformed).setErr l = none) ∧
    ((∃ cat id, readWrites stdLib (World.ofLists exampleListsWithMalformed) {} cat id) ∧
    (∀ e ∈ collectResources (World.ofLists exampleListsWithMalformed).lists, ∃ name group,
      assertString (e "name") = some name ∧ assertString (e "api_group") = some group) ∧
    ∃ rs, (collectResources (World.ofLists exampleListsWithMalformed).lists).mapM
        setFullyQualifiedName = some rs ∧
      (∀ a ∈ rs, ∀ b ∈ rs, ∃ r, lessFqn a b = some r) ∧
      ∃ cat, stdLib.sorter.run lessFqn rs = some cat ∧
        ∀ e ∈ cat, ∃ s, assertString (e "fully_qualified_name") = some s) :=
  ⟨stdSorter_lawful, rfl, fun _ => rfl,
    read_never_fails stdLib stdSorter_lawful (World.ofLists exampleListsWithMalformed) {}
      rfl (fun _ => rfl)⟩

/-- Claim C14: two reads of the same discovery lists, whatever the records they
start from and whatever error discovery returned beside the lists, write the same
`api_resources` list, entries and order, and the same identifier. -/
theorem read_repeatable (L : Lib) (hL : L.sorter.Lawful) (w₁ w₂ : World)
    (d₁ d₂ : ResourceData) (h : w₁.lists = w₂.lists)
    (hc₁ : w₁.clientErr = none) (hs₁ : ∀ l, w₁.setErr l = none)
    (hc₂ : w₂.clientErr = none) (hs₂ : ∀ l, w₂.setErr l = none) :
    ∃ cat id, readWrites L w₁ d₁ cat id ∧ readWrites L w₂ d₂ cat id := by
  obtain ⟨c₁, hb₁, -, -, hr₁⟩ := read_spec L hL w₁ d₁ hc₁ hs₁
  obtain ⟨c₂, hb₂, -, -, hr₂⟩ := read_spec L hL w₂ d₂ hc₂ hs₂
  rw [h, hb₂] at hb₁
  cases hb₁
  exact ⟨c₁, _, hr₁, hr₂⟩

theorem read_repeatable_witness :
    stdLib.sorter.Lawful ∧
    (World.ofLists exampleLists).lists =
      ({ lists := exampleLists, discoveryErr := some (str "partial") } : World).lists ∧
    ∃ cat id, readWrites stdLib (World.ofLists exampleLists) {} cat id ∧
      readWrites stdLib { lists := exampleLists, discoveryErr := some (str "partial") }
        { api_resources := some [], id := some (str "old") } cat id :=
  ⟨stdSorter_lawful, rfl,
    read_repeatable stdLib stdSorter_lawful (World.ofLists exampleLists)
      { lists := exampleLists, discoveryErr := some (str "partial") } {}
      { api_resources := some [], id := some (str "old") } rfl rfl (fun _ => rfl) rfl
      (fun _ => rfl)⟩

set_option maxRecDepth 1000000 in
/-- Claim C15, refuted as stated: with the sort that Go releases up to 1.18 run on a
slice of seven entries, which meets the contract of `sort.Slice`, the two entries
named "deployments.apps" are written in the order `apps/v1beta1`, `apps/v1`, the
reverse of the order of their descriptors in the input. -/
theorem equal_names_reordered_by_sort :
    legacySorter.Lawful ∧
    (retainedEntries sevenResources).map (fun e => (fqnOf e, groupVersionOf e)) =
      [(str "poddisruptionbudgets.policy", str "policy/v1"),
       (str "deployments.apps", str "apps/v1"),
       (str "pods", str "v1"), (str "services", str "v1"), (str "nodes", str "v1"),
       (str "secrets", str "v1"),
       (str "deployments.apps", str "apps/v1beta1")] ∧
    (catalogOf legacyLib sevenResources).map
        (fun cat => cat.map (fun e => (fqnOf e, groupVersionOf e))) =
      some [(str "deployments.apps", str "apps/v1beta1"),
        (str "deployments.apps", str "apps/v1"),
        (str "nodes", str "v1"),
        (str "poddisruptionbudgets.policy", str "policy/v1"),
        (str "pods", str "v1"), (str "secrets", str "v1"), (str "services", str "v1")] :=
  ⟨legacySorter_lawful, by decide, by decide⟩

/-- Claim C15, amended: `sort.Slice` promises no stability, so entries with equal
fully-qualified names may be written in either relative order; for any two
implementations of `sort.Slice` that meet its contract the written lists are
permutations of each other, sorted by name, with the same sequence of
fully-qualified names and the same identifier. -/
theorem names_independent_of_sorter (L₁ L₂ : Lib) (h₁ : L₁.sorter.Lawful)
    (h₂ : L₂.sorter.Lawful) (hsha : L₁.sha256Sum = L₂.sha256Sum)
    (lists : List APIResourceList) :
    ∃ c₁ c₂ names id, catalogOf L₁ lists = some c₁ ∧ catalogOf L₂ lists = some c₂ ∧
      c₁.Perm c₂ ∧ c₁.map fqnOf = names ∧ c₂.map fqnOf = names ∧
      names.Pairwise (fun a b => strLe a b) ∧
      identifierOf L₁ lists = some id ∧ identifierOf L₂ lists = some id := by
  obtain ⟨c₁, hp₁, hs₁, hc₁, -, hi₁⟩ := observations_spec L₁ h₁ lists
  obtain ⟨c₂, hp₂, hs₂, hc₂, -, hi₂⟩ := observations_spec L₂ h₂ lists
  have hperm : c₁.Perm c₂ := hp₁.trans hp₂.symm
  have hnames : c₁.map fqnOf = c₂.map fqnOf :=
    sortedNames_unique _ _ (hperm.map fqnOf) (List.pairwise_map.mpr hs₁)
      (List.pairwise_map.mpr hs₂)
  refine ⟨c₁, c₂, c₂.map fqnOf, _, hc₁, hc₂, hperm, hnames, rfl, ?_, ?_, hi₂⟩
  · exact (List.pairwise_map.mpr hs₂).imp (fun h => strLe_of_not_less _ _ h)
  · rw [hi₁, hnames, hsha]

theorem names_independent_of_sorter_witness :
    stdLib.sorter.Lawful ∧ legacyLib.sorter.Lawful ∧
    stdLib.sha256Sum = legacyLib.sha256Sum ∧
    ∃ c₁ c₂ names id, catalogOf stdLib sevenResources = some c₁ ∧
      catalogOf legacyLib sevenResources = some c₂ ∧
      c₁.Perm c₂ ∧ c₁.map fqnOf = names ∧ c₂.map fqnOf = names ∧
      names.Pairwise (fun a b => strLe a b) ∧
      identifierOf stdLib sevenResources = some id ∧
      identifierOf legacyLib sevenResources = some id :=
  ⟨stdSorter_lawful, legacySorter_lawful, rfl,
    names_independent_of_sorter stdLib legacyLib stdSorter_lawful legacySorter_lawful rfl
      sevenResources⟩

/-- Claim C16: whenever the client is acquired and the write succeeds, for every
resource list whose group-version string is "g/v" with `g` non-empty and a single
`/`, or a string without `/` (`g` then being empty), every entry retained from that
list is written and has `api_group` equal to `g` and `api_group_version` equal to
the group-version string of the list; no field of the descriptor enters either. -/
theorem group_fields_of_entries (L : Lib) (hL : L.sorter.Lawful) (w : World)
    (d : ResourceData) (hc : w.clientErr = none) (hs : ∀ l, w.setErr l = none) :
    ∃ cat id, readWrites L w d cat id ∧
      ∀ list ∈ w.lists, ∀ g, hasGroup list.GroupVersion g →
        ∃ gv, ParseGroupVersion list.GroupVersion = .ok gv ∧
          ∀ r ∈ list.APIResources, r.Verbs ≠ [] →
            catalogEntry gv r ∈ cat ∧
            catalogEntry gv r "name" = some (.string r.Name) ∧
            catalogEntry gv r "api_group" = some (.string g) ∧
            catalogEntry gv r "api_group_version" = some (.string list.GroupVersion) := by
  obtain ⟨cat, -, hperm, -, hread⟩ := read_spec L hL w d hc hs
  refine ⟨cat, _, hread, ?_⟩
  intro list hl g hg
  have hparse : ∃ gv, ParseGroupVersion list.GroupVersion = .ok gv ∧ gv.Group = g ∧
      gv.String = list.GroupVersion := by
    rcases hg with ⟨h0, rfl⟩ | ⟨hne, hgs, v, hvs, hs'⟩
    · exact parse_no_slash _ h0
    · rw [hs']
      exact parse_group_slash g v hne hgs hvs
  obtain ⟨gv, hgv, hgroup, hstring⟩ := hparse
  refine ⟨gv, hgv, ?_⟩
  intro r hr hv
  refine ⟨?_, rfl, ?_, ?_⟩
  · apply hperm.mem_iff.mpr
    simp only [retainedEntries, List.mem_flatMap]
    refine ⟨list, hl, ?_⟩
    simp only [retainedOfList, hgv, List.mem_map, List.mem_filter, decide_eq_true_eq]
    exact ⟨r, ⟨hr, hv⟩, rfl⟩
  · rw [← hgroup]; rfl
  · rw [← hstring]; rfl

theorem group_fields_of_entries_witness :
    stdLib.sorter.Lawful ∧ (World.ofLists exampleLists).clientErr = none ∧
    (∀ l, (World.ofLists exampleLists).setErr l = none) ∧
    hasGroup (str "apps/v1") (str "apps") ∧ hasGroup (str "v1") [] ∧
    ∃ cat id, readWrites stdLib (World.ofLists exampleLists) {} cat id ∧
      ∀ list ∈ (World.ofLists exampleLists).lists, ∀ g, hasGroup list.GroupVersion g →
        ∃ gv, ParseGroupVersion list.GroupVersion = .ok gv ∧
          ∀ r ∈ list.APIResources, r.Verbs ≠ [] →
            catalogEntry gv r ∈ cat ∧
            catalogEntry gv r "name" = some (.string r.Name) ∧
            catalogEntry gv r "api_group" = some (.string g) ∧
            catalogEntry gv r "api_group_version" = some (.string list.GroupVersion) :=
  ⟨stdSorter_lawful, rfl, fun _ => rfl,
    Or.inr ⟨by decide, by decide, str "v1", by decide, by decide⟩,
    Or.inl ⟨by decide, rfl⟩,
    group_fields_of_entries stdLib stdSorter_lawful (World.ofLists exampleLists) {}
      rfl (fun _ => rfl)⟩

/-- Claim C17: when one discovery result is the other with its lists reordered and
the descriptors inside the lists reordered, the two catalogs have the same sequence
of fully-qualified names and the two identifiers are equal. -/
theorem names_independent_of_input_order (L : Lib) (hL : L.sorter.Lawful)
    (l₁ l₂ : List APIResourceList) (h : reordered l₁ l₂) :
    ∃ names id, catalogNames L l₁ = some names ∧ catalogNames L l₂ = some names ∧
      identifierOf L l₁ = some id ∧ identifierOf L l₂ = some id := by
  have hnames := catalogNames_of_perm L hL l₁ l₂
    ((retainedEntries_reordered l₁ l₂ h).map fqnOf)
  have hid := identifierOf_of_names L hL l₁ l₂ hnames
  obtain ⟨c₁, -, -, -, hn₁, hi₁⟩ := observations_spec L hL l₁
  exact ⟨_, _, hn₁, by rw [← hnames, hn₁], hi₁, by rw [← hid, hi₁]⟩

theorem names_independent_of_input_order_witness :
    stdLib.sorter.Lawful ∧ reordered exampleLists exampleListsReordered ∧
    ∃ names id, catalogNames stdLib exampleLists = some names ∧
      catalogNames stdLib exampleListsReordered = some names ∧
      identifierOf stdLib exampleLists = some id ∧
      identifierOf stdLib exampleListsReordered = some id :=
  have h : reordered exampleLists exampleListsReordered :=
    ⟨_, List.Perm.swap _ _ [],
      List.Forall₂.cons ⟨rfl, List.Perm.swap _ _ []⟩
        (List.Forall₂.cons ⟨rfl, List.Perm.refl _⟩ List.Forall₂.nil)⟩
  ⟨stdSorter_lawful, h,
    names_independent_of_input_order stdLib stdSorter_lawful exampleLists
      exampleListsReordered h⟩

end Kubernetes
